import Mathlib

/-!
Verification of the resilience layer of the `uspto_enriched_citation_mcp`
repository: token-bucket rate limiting (`util/rate_limiter.py`), exponential
backoff retry (`util/retry.py`), the circuit breaker
(`shared/circuit_breaker.py`) and the TTL/LRU caches (`util/cache.py`).

Python floats (timestamps, token counts, delays) are modelled as rationals;
Python ints as naturals.  Each Python method that mutates `self` becomes a
pure function returning the new state.  The wall clock (`time.monotonic()`
or `time.time()`) becomes an explicit `now : ℚ` argument; the several clock
reads inside one call are collapsed to that single instant.
-/

set_option maxHeartbeats 1000000

namespace UsptoMcp

/-! ## Token bucket (`util/rate_limiter.py`, class `TokenBucket`) -/

/-- State of `TokenBucket`: refill rate (tokens per second), capacity,
current token level and the timestamp of the last refill. -/
structure TokenBucket where
  rate : ℚ
  capacity : ℚ
  tokens : ℚ
  last_update : ℚ
deriving DecidableEq, Repr

/-- `TokenBucket.__init__`: capacity defaults to the rate, bucket starts
full, `last_update` is the creation time. -/
def mkTokenBucket (rate : ℚ) (capacity : Option ℚ) (now : ℚ) : TokenBucket :=
  let cap := capacity.getD rate
  { rate := rate, capacity := cap, tokens := cap, last_update := now }

/-- The refilled token level a bucket would hold at time `now`:
`min(self.capacity, self.tokens + elapsed * self.rate)`. -/
def TokenBucket.availableAt (b : TokenBucket) (now : ℚ) : ℚ :=
  min b.capacity (b.tokens + (now - b.last_update) * b.rate)

/-- `TokenBucket.consume`: refill from elapsed time, then consume `n`
tokens if available.  Returns the success flag and the new bucket state. -/
def TokenBucket.consume (b : TokenBucket) (now : ℚ) (n : ℚ) : Bool × TokenBucket :=
  let avail := b.availableAt now
  if n ≤ avail then
    (true, { b with tokens := avail - n, last_update := now })
  else
    (false, { b with tokens := avail, last_update := now })

/-- A sequence of `consume` calls, each given as (timestamp, tokens asked).
Returns the final bucket and the total number of tokens granted (the sum of
`n` over the calls that returned `True`). -/
def TokenBucket.consumeTrace (b : TokenBucket) : List (ℚ × ℚ) → TokenBucket × ℚ
  | [] => (b, 0)
  | (t, n) :: evs =>
    let r := b.consume t n
    let rest := r.2.consumeTrace evs
    (rest.1, (if r.1 then n else 0) + rest.2)

/-- Timestamps of a call trace are non-decreasing and start no earlier
than `t0` (the clock `time.monotonic()` is monotone). -/
def chronological : ℚ → List (ℚ × ℚ) → Prop
  | _, [] => True
  | t0, (t, _) :: evs => t0 ≤ t ∧ chronological t evs

instance : ∀ t0 evs, Decidable (chronological t0 evs)
  | _, [] => .isTrue trivial
  | t0, (t, _) :: evs =>
    have : Decidable (chronological t evs) := instDecidableChronological t evs
    inferInstanceAs (Decidable (t0 ≤ t ∧ chronological t evs))

/-! ## Exponential backoff and retry (`util/retry.py`) -/

/-- `calculate_backoff`.  The random draw `random.uniform(0, delay)` is
modelled as `u * delay` for a supplied draw `u` (a uniform sample from
`[0, 1]`); with `jitter = false` the draw is ignored, as in the source. -/
def calculate_backoff (attempt : ℕ) (base_delay max_delay exponential_base : ℚ)
    (jitter : Bool) (u : ℚ) : ℚ :=
  let delay := min (base_delay * exponential_base ^ attempt) max_delay
  if jitter then u * delay else delay

/-- Outcome of the retry wrapper: either the wrapped function's value, a
re-raised exception, or the `None` Python silently returns when
`max_attempts = 0` makes the loop body never run. -/
inductive RetryOutcome (ε α : Type) where
  | value (a : α)
  | raised (e : ε)
  | noResult
deriving DecidableEq, Repr

/-- The retry loop of `retry_async` from attempt number `k` with `r`
attempts remaining.  The wrapped function is modelled as `f : ℕ → Except ε α`
giving the outcome of each invocation; `retryable` is
`is_retryable_error`.  Returns the outcome and the number of invocations
performed (sleeps are irrelevant to the claims and dropped). -/
def retryFrom (f : ℕ → Except ε α) (retryable : ε → Bool) :
    ℕ → ℕ → RetryOutcome ε α × ℕ
  | 0, _ => (.noResult, 0)
  | r + 1, k =>
    match f k with
    | .ok v => (.value v, 1)
    | .error e =>
      if retryable e then
        if r = 0 then (.raised e, 1)
        else
          let rest := retryFrom f retryable r (k + 1)
          (rest.1, rest.2 + 1)
      else (.raised e, 1)

/-- `retry_async(max_attempts, ...)` applied to a wrapped function. -/
def retry_async (f : ℕ → Except ε α) (retryable : ε → Bool) (max_attempts : ℕ) :
    RetryOutcome ε α × ℕ :=
  retryFrom f retryable max_attempts 0

/-! ## Circuit breaker (`shared/circuit_breaker.py`) -/

/-- `CircuitState`: `OPEN` is spelled `opened` (`open` is reserved). -/
inductive CircuitState where
  | closed
  | opened
  | halfOpen
deriving DecidableEq, Repr

/-- State of `CircuitBreaker` (configuration plus mutable fields). -/
structure CircuitBreaker where
  failure_threshold : ℕ
  recovery_timeout : ℚ
  success_threshold : ℕ
  state : CircuitState
  failure_count : ℕ
  success_count : ℕ
  last_failure_time : Option ℚ
deriving DecidableEq, Repr

/-- `CircuitBreaker.__init__`: starts CLOSED with zeroed counters. -/
def mkCircuitBreaker (failure_threshold : ℕ) (recovery_timeout : ℚ)
    (success_threshold : ℕ) : CircuitBreaker :=
  { failure_threshold := failure_threshold
    recovery_timeout := recovery_timeout
    success_threshold := success_threshold
    state := .closed
    failure_count := 0
    success_count := 0
    last_failure_time := none }

/-- `CircuitBreaker._should_attempt_reset`:
`time.time() - self._last_failure_time >= self.recovery_timeout`. -/
def CircuitBreaker.should_attempt_reset (cb : CircuitBreaker) (now : ℚ) : Bool :=
  match cb.last_failure_time with
  | none => false
  | some t => decide (cb.recovery_timeout ≤ now - t)

/-- Outcome of the wrapped function: it returns, or raises an exception.
The `expected_exception` branch and the generic `except Exception` branch
of the source update the breaker identically, so one failure case
suffices. -/
inductive Outcome where
  | success
  | failure
deriving DecidableEq, Repr

/-- What `CircuitBreaker.call` does: fails fast with `CircuitBreakerError`
(the wrapped function is not invoked), returns the function's result, or
re-raises the function's exception. -/
inductive CallResult where
  | breakerError
  | returned
  | raised
deriving DecidableEq, Repr

/-- `CircuitBreaker.call` at time `now`, where the wrapped function (when
invoked) has the given outcome. -/
def CircuitBreaker.call (cb : CircuitBreaker) (now : ℚ) (o : Outcome) :
    CallResult × CircuitBreaker :=
  if cb.state = CircuitState.opened ∧ cb.should_attempt_reset now = false then
    (.breakerError, cb)
  else
    let cb1 :=
      if cb.state = CircuitState.opened then
        { cb with state := .halfOpen, success_count := 0 }
      else cb
    let cb2 :=
      if cb1.state = CircuitState.halfOpen ∧ cb1.success_threshold ≤ cb1.success_count then
        { cb1 with state := .closed, failure_count := 0 }
      else cb1
    match o with
    | .success =>
      if cb2.state = CircuitState.halfOpen then
        (.returned, { cb2 with success_count := cb2.success_count + 1 })
      else if cb2.state = CircuitState.closed then
        (.returned, { cb2 with failure_count := 0 })
      else
        (.returned, cb2)
    | .failure =>
      let cb3 := { cb2 with
        failure_count := cb2.failure_count + 1
        last_failure_time := some now }
      if cb3.state = CircuitState.halfOpen then
        (.raised, { cb3 with state := .opened })
      else if cb3.state = CircuitState.closed ∧ cb3.failure_threshold ≤ cb3.failure_count then
        (.raised, { cb3 with state := .opened })
      else
        (.raised, cb3)

/-- A sequence of `call`s, each given as (timestamp, function outcome).
Returns the final breaker and how many times the wrapped function was
actually invoked (calls rejected with `CircuitBreakerError` do not invoke
it). -/
def CircuitBreaker.runCalls (cb : CircuitBreaker) :
    List (ℚ × Outcome) → CircuitBreaker × ℕ
  | [] => (cb, 0)
  | (t, o) :: rest =>
    let r := cb.call t o
    let next := r.2.runCalls rest
    (next.1, (if r.1 = CallResult.breakerError then 0 else 1) + next.2)

/-! ## Caches (`util/cache.py`)

Python dicts are modelled as lists of entries in insertion order: updating
an existing key replaces the entry in place, a new key is appended, `del`
removes the binding.  For `OrderedDict` the same list with explicit
`move_to_end` as remove-and-append. -/

/-- `CacheEntry` (dataclass). -/
structure CacheEntry (α : Type) where
  key : String
  value : α
  created_at : ℚ
  expires_at : Option ℚ
  hit_count : ℕ
  last_accessed : ℚ
deriving DecidableEq, Repr

/-- `CacheEntry.is_expired`: `time.time() > self.expires_at` when an expiry
is set, never expired otherwise. -/
def CacheEntry.is_expired (e : CacheEntry α) (now : ℚ) : Bool :=
  match e.expires_at with
  | none => false
  | some t => decide (t < now)

/-- `CacheEntry.access`: bump `hit_count`, stamp `last_accessed`. -/
def CacheEntry.access (e : CacheEntry α) (now : ℚ) : CacheEntry α :=
  { e with hit_count := e.hit_count + 1, last_accessed := now }

/-- Replace the first entry with the given key (dict assignment to an
existing key keeps its position). -/
def updateEntry (k : String) (f : CacheEntry α → CacheEntry α) :
    List (CacheEntry α) → List (CacheEntry α)
  | [] => []
  | e :: es => if e.key = k then f e :: es else e :: updateEntry k f es

/-- Remove the first entry with the given key (`del cache[key]`). -/
def removeEntry (k : String) : List (CacheEntry α) → List (CacheEntry α)
  | [] => []
  | e :: es => if e.key = k then es else e :: removeEntry k es

/-- State of `TTLCache`. -/
structure TTLCache (α : Type) where
  default_ttl : ℚ
  max_size : ℕ
  cache : List (CacheEntry α)
  hits : ℕ
  misses : ℕ
deriving DecidableEq, Repr

/-- `TTLCache.__init__`. -/
def mkTTLCache (α : Type) (default_ttl_seconds : ℚ) (max_size : ℕ) : TTLCache α :=
  { default_ttl := default_ttl_seconds, max_size := max_size,
    cache := [], hits := 0, misses := 0 }

/-- `TTLCache.get`: miss on absent key; on an expired entry either serve it
stale (`allow_stale`) or delete it and miss; otherwise a fresh hit.  Hits
record the access on the entry. -/
def TTLCache.get (c : TTLCache α) (k : String) (allow_stale : Bool) (now : ℚ) :
    Option α × TTLCache α :=
  match c.cache.find? (fun e => e.key == k) with
  | none => (none, { c with misses := c.misses + 1 })
  | some e =>
    if e.is_expired now then
      if allow_stale then
        (some e.value,
         { c with cache := updateEntry k (fun e' => e'.access now) c.cache,
                  hits := c.hits + 1 })
      else
        (none, { c with cache := removeEntry k c.cache, misses := c.misses + 1 })
    else
      (some e.value,
       { c with cache := updateEntry k (fun e' => e'.access now) c.cache,
                hits := c.hits + 1 })

/-- The metadata dict returned by `TTLCache.get_with_metadata` (the
`round(age, 1)` applied for display is modelled as the exact age). -/
structure CacheMetadata (α : Type) where
  value : α
  is_stale : Bool
  age_seconds : ℚ
  hit_count : ℕ
  created_at : ℚ
  expires_at : Option ℚ
deriving DecidableEq, Repr

/-- `TTLCache.get_with_metadata`: like `get` but reporting staleness and
entry metadata; the reported `hit_count` is the value after `access()`. -/
def TTLCache.get_with_metadata (c : TTLCache α) (k : String) (allow_stale : Bool)
    (now : ℚ) : Option (CacheMetadata α) × TTLCache α :=
  match c.cache.find? (fun e => e.key == k) with
  | none => (none, { c with misses := c.misses + 1 })
  | some e =>
    let is_stale := e.is_expired now
    if is_stale = true ∧ allow_stale = false then
      (none, { c with cache := removeEntry k c.cache, misses := c.misses + 1 })
    else
      (some { value := e.value, is_stale := is_stale,
              age_seconds := now - e.created_at, hit_count := e.hit_count + 1,
              created_at := e.created_at, expires_at := e.expires_at },
       { c with cache := updateEntry k (fun e' => e'.access now) c.cache,
                hits := c.hits + 1 })

/-- The minimum `created_at` over a list of entries. -/
def minCreated : List (CacheEntry α) → Option ℚ
  | [] => none
  | e :: es =>
    match minCreated es with
    | none => some e.created_at
    | some m => some (min e.created_at m)

/-- `TTLCache._evict_oldest`: drop the entry with the smallest
`created_at`; Python's `min` keeps the first minimum in iteration order,
hence `eraseP` on the first entry attaining the minimum. -/
def TTLCache.evict_oldest (c : TTLCache α) : TTLCache α :=
  match minCreated c.cache with
  | none => c
  | some m => { c with cache := c.cache.eraseP (fun e => e.created_at == m) }

/-- `TTLCache.set`: evict the oldest entry when inserting a new key at
capacity, then store an entry whose `expires_at` is `now + ttl` for a
positive ttl and `None` otherwise. -/
def TTLCache.set (c : TTLCache α) (k : String) (v : α) (ttl_seconds : Option ℚ)
    (now : ℚ) : TTLCache α :=
  let present := (c.cache.find? (fun e => e.key == k)).isSome
  let c1 := if c.max_size ≤ c.cache.length ∧ present = false then c.evict_oldest else c
  let ttl := ttl_seconds.getD c.default_ttl
  let expiry : Option ℚ := if 0 < ttl then some (now + ttl) else none
  let entry : CacheEntry α :=
    { key := k, value := v, created_at := now, expires_at := expiry,
      hit_count := 0, last_accessed := now }
  if present then { c1 with cache := updateEntry k (fun _ => entry) c1.cache }
  else { c1 with cache := c1.cache ++ [entry] }

/-- State of `LRUCache`; the entry list is in recency order, least recently
used first (the head is what `popitem(last=False)` evicts). -/
structure LRUCache (α : Type) where
  max_size : ℕ
  cache : List (CacheEntry α)
  hits : ℕ
  misses : ℕ
deriving DecidableEq, Repr

/-- `LRUCache.__init__`. -/
def mkLRUCache (α : Type) (max_size : ℕ) : LRUCache α :=
  { max_size := max_size, cache := [], hits := 0, misses := 0 }

/-- `LRUCache.get`: a hit moves the entry to the most-recently-used end and
records the access. -/
def LRUCache.get (c : LRUCache α) (k : String) (now : ℚ) : Option α × LRUCache α :=
  match c.cache.find? (fun e => e.key == k) with
  | none => (none, { c with misses := c.misses + 1 })
  | some e =>
    (some e.value,
     { c with cache := removeEntry k c.cache ++ [e.access now], hits := c.hits + 1 })

/-- `LRUCache.set`: an existing key is moved to the end and updated in
value and `last_accessed`; a new key is appended and, if the cache then
exceeds `max_size`, the least recently used entry (head) is evicted. -/
def LRUCache.set (c : LRUCache α) (k : String) (v : α) (now : ℚ) : LRUCache α :=
  match c.cache.find? (fun e => e.key == k) with
  | some e =>
    { c with cache := removeEntry k c.cache ++
        [{ e with value := v, last_accessed := now }] }
  | none =>
    let entry : CacheEntry α :=
      { key := k, value := v, created_at := now, expires_at := none,
        hit_count := 0, last_accessed := now }
    let cache1 := c.cache ++ [entry]
    { c with cache := if c.max_size < cache1.length then cache1.drop 1 else cache1 }

/-- Insert a sequence of keys (all with the same value and timestamp; the
eviction behaviour depends only on the keys). -/
def LRUCache.setAll (c : LRUCache α) (v : α) (now : ℚ) (ks : List String) : LRUCache α :=
  ks.foldl (fun acc k => acc.set k v now) c

/-! ## Rate limiter (`util/rate_limiter.py`, class `RateLimiter`) -/

/-- `RateLimitConfig` dataclass. -/
structure RateLimitConfig where
  requests_per_minute : ℚ
  burst_size : Option ℚ
deriving DecidableEq, Repr

/-- State of `RateLimiter`: the derived rate and burst size, the global
bucket and the per-endpoint buckets (a dict keyed by endpoint name),
plus the request counters. -/
structure RateLimiter where
  requests_per_minute : ℚ
  tokens_per_second : ℚ
  burst_size : ℚ
  global_bucket : TokenBucket
  buckets : List (String × TokenBucket)
  total_requests : ℕ
  rejected_requests : ℕ
deriving DecidableEq, Repr

/-- `RateLimiter.__init__`: rate is `requests_per_minute / 60`; the burst
size is `config.burst_size or config.requests_per_minute` (Python `or`, so
a burst size of `0` also falls back to `requests_per_minute`). -/
def mkRateLimiter (config : RateLimitConfig) (now : ℚ) : RateLimiter :=
  let tps := config.requests_per_minute / 60
  let burst :=
    match config.burst_size with
    | none => config.requests_per_minute
    | some b => if b = 0 then config.requests_per_minute else b
  { requests_per_minute := config.requests_per_minute
    tokens_per_second := tps
    burst_size := burst
    global_bucket := mkTokenBucket tps (some burst) now
    buckets := []
    total_requests := 0
    rejected_requests := 0 }

/-- Replace the first bucket bound to the endpoint (dict assignment). -/
def updateBucket (endpoint : String) (b : TokenBucket) :
    List (String × TokenBucket) → List (String × TokenBucket)
  | [] => []
  | p :: ps =>
    if p.1 = endpoint then (endpoint, b) :: ps else p :: updateBucket endpoint b ps

/-- `RateLimiter.get_or_create_bucket`: a missing endpoint gets a fresh
full bucket with the limiter's rate and burst capacity. -/
def RateLimiter.get_or_create_bucket (rl : RateLimiter) (endpoint : String)
    (now : ℚ) : TokenBucket × RateLimiter :=
  match rl.buckets.find? (fun p => p.1 == endpoint) with
  | some p => (p.2, rl)
  | none =>
    let b := mkTokenBucket rl.tokens_per_second (some rl.burst_size) now
    (b, { rl with buckets := rl.buckets ++ [(endpoint, b)] })

/-- `RateLimiter.acquire`: consume from the global bucket first; only if
that succeeds, consume from the endpoint bucket (created on demand).  The
refills performed by the `consume` calls persist in both buckets either
way, as the Python code mutates the bucket objects in place. -/
def RateLimiter.acquire (rl : RateLimiter) (endpoint : String) (n : ℚ)
    (now : ℚ) : Bool × RateLimiter :=
  let rl0 := { rl with total_requests := rl.total_requests + 1 }
  let g := rl0.global_bucket.consume now n
  if g.1 = false then
    (false, { rl0 with global_bucket := g.2,
                       rejected_requests := rl0.rejected_requests + 1 })
  else
    let rl1 := { rl0 with global_bucket := g.2 }
    let gc := rl1.get_or_create_bucket endpoint now
    let e := gc.1.consume now n
    let rl2 := { gc.2 with buckets := updateBucket endpoint e.2 gc.2.buckets }
    if e.1 = false then
      (false, { rl2 with rejected_requests := rl2.rejected_requests + 1 })
    else
      (true, rl2)

/-- The token level a bucket would reach at time `τ` ignoring the capacity
cap; the refilled level of `availableAt` is this clipped at capacity. -/
def virtualLevel (b : TokenBucket) (τ : ℚ) : ℚ :=
  b.tokens + (τ - b.last_update) * b.rate

/-- A bucket owned by the limiter: right rate and capacity, token level in
`[0, capacity]`, last refill not in the future. -/
def bucketWF (rate cap τ : ℚ) (b : TokenBucket) : Prop :=
  b.rate = rate ∧ b.capacity = cap ∧ 0 ≤ b.tokens ∧ b.tokens ≤ cap ∧
    b.last_update ≤ τ

instance (rate cap τ : ℚ) (b : TokenBucket) : Decidable (bucketWF rate cap τ b) :=
  inferInstanceAs (Decidable (_ ∧ _))

/-- Well-formedness of a limiter state at time `τ`: nonnegative rate and
burst size, well-formed buckets, and the key invariant that every endpoint
bucket holds at least as many (virtual) tokens as the global bucket —
endpoint buckets are created full and only ever consumed together with the
global bucket, so the global bucket is always the lower of the two gates. -/
def RateLimiter.WF (rl : RateLimiter) (τ : ℚ) : Prop :=
  0 ≤ rl.tokens_per_second ∧ 0 ≤ rl.burst_size ∧
  bucketWF rl.tokens_per_second rl.burst_size τ rl.global_bucket ∧
  ∀ p ∈ rl.buckets,
    bucketWF rl.tokens_per_second rl.burst_size τ p.2 ∧
      (virtualLevel rl.global_bucket τ ≤ virtualLevel p.2 τ ∨
        rl.burst_size ≤ virtualLevel p.2 τ)

instance (rl : RateLimiter) (τ : ℚ) : Decidable (rl.WF τ) :=
  inferInstanceAs (Decidable (_ ∧ _))

/-! ## C6: backoff growth -/

/-- C6: with jitter disabled, `calculate_backoff(n)` equals
`min(baseDelay * exponentialBase^n, maxDelay)`; consecutive delays grow by
exactly the factor `exponentialBase` while below the cap, and are constant
at `maxDelay` once the cap is reached; with jitter enabled, the delay lies
in `[0, min(baseDelay * exponentialBase^n, maxDelay)]` (full jitter). -/
theorem backoff_growth (n : ℕ) (b m e u : ℚ) (hb : 0 < b) (he : 1 < e)
    (hm : 0 < m) (hu0 : 0 ≤ u) (hu1 : u ≤ 1) :
    calculate_backoff n b m e false u = min (b * e ^ n) m ∧
    (b * e ^ (n + 1) ≤ m →
      calculate_backoff (n + 1) b m e false u =
        e * calculate_backoff n b m e false u) ∧
    (m ≤ b * e ^ n → calculate_backoff n b m e false u = m) ∧
    0 ≤ calculate_backoff n b m e true u ∧
    calculate_backoff n b m e true u ≤ min (b * e ^ n) m := by
  have he0 : (0 : ℚ) < e := lt_trans one_pos he
  have hpow : (0 : ℚ) < e ^ n := pow_pos he0 n
  have hbe : 0 < b * e ^ n := mul_pos hb hpow
  have hmin0 : 0 ≤ min (b * e ^ n) m := le_min (le_of_lt hbe) (le_of_lt hm)
  refine ⟨rfl, ?_, ?_, ?_, ?_⟩
  · intro hcap
    have hstep : b * e ^ n ≤ b * e ^ (n + 1) := by
      have : e ^ n ≤ e ^ (n + 1) := pow_le_pow_right₀ (le_of_lt he) (Nat.le_succ n)
      exact mul_le_mul_of_nonneg_left this (le_of_lt hb)
    have h1 : calculate_backoff (n + 1) b m e false u = b * e ^ (n + 1) := by
      simp [calculate_backoff, min_eq_left hcap]
    have h2 : calculate_backoff n b m e false u = b * e ^ n := by
      simp [calculate_backoff, min_eq_left (le_trans hstep hcap)]
    rw [h1, h2, pow_succ]
    ring
  · intro hcap
    simp [calculate_backoff, min_eq_right hcap]
  · simpa [calculate_backoff] using mul_nonneg hu0 hmin0
  · have : u * min (b * e ^ n) m ≤ 1 * min (b * e ^ n) m :=
      mul_le_mul_of_nonneg_right hu1 hmin0
    simpa [calculate_backoff] using this

/-- Witness for C6 at `n = 3`, `baseDelay = 1`, `maxDelay = 60`,
`exponentialBase = 2`, draw `u = 1`. -/
theorem backoff_growth_witness :
    (0 : ℚ) < 1 ∧ (1 : ℚ) < 2 ∧
    calculate_backoff 3 1 60 2 false 1 = min ((1 : ℚ) * 2 ^ 3) 60 ∧
    calculate_backoff 3 1 60 2 true 1 ≤ min ((1 : ℚ) * 2 ^ 3) 60 :=
  ⟨by decide, by decide,
    (backoff_growth 3 1 60 2 1 (by decide) (by decide) (by decide)
      (by decide) (by decide)).1,
    (backoff_growth 3 1 60 2 1 (by decide) (by decide) (by decide)
      (by decide) (by decide)).2.2.2.2⟩

/-! ## C5: retry attempt budget -/

/-- If every invocation from attempt `k` on raises a retryable exception,
the loop performs all remaining attempts and re-raises the last
exception. -/
theorem retryFrom_all_retryable (f : ℕ → Except ε α) (retryable : ε → Bool)
    (err : ℕ → ε) (hf : ∀ j, f j = .error (err j))
    (hr : ∀ j, retryable (err j) = true) :
    ∀ r k, 0 < r → retryFrom f retryable r k = (.raised (err (k + r - 1)), r) := by
  intro r
  induction r with
  | zero => intro k h; exact absurd h (lt_irrefl 0)
  | succ r ih =>
    intro k _
    rcases Nat.eq_zero_or_pos r with hr0 | hrpos
    · subst hr0
      simp [retryFrom, hf k, hr k]
    · have hne : r ≠ 0 := Nat.pos_iff_ne_zero.mp hrpos
      have hrec := ih (k + 1) hrpos
      have harg : k + 1 + r - 1 = k + (r + 1) - 1 := by omega
      simp only [retryFrom, hf k, hr k, if_true, hne, if_false, hrec, harg]

/-- C5: an operation that always raises a retryable exception is invoked
exactly `maxAttempts` times, after which the last exception propagates; an
operation whose first invocation raises a non-retryable exception is
invoked exactly once and that exception is re-raised immediately. -/
theorem retry_attempt_budget (f : ℕ → Except ε α) (retryable : ε → Bool)
    (m : ℕ) (err : ℕ → ε) (e : ε) (hm : 0 < m) :
    ((∀ j, f j = .error (err j)) → (∀ j, retryable (err j) = true) →
      retry_async f retryable m = (.raised (err (m - 1)), m)) ∧
    (f 0 = .error e → retryable e = false →
      retry_async f retryable m = (.raised e, 1)) := by
  constructor
  · intro hf hr
    have := retryFrom_all_retryable f retryable err hf hr m 0 hm
    simpa [retry_async] using this
  · intro hf hr
    obtain ⟨m', rfl⟩ : ∃ m', m = m' + 1 := ⟨m - 1, by omega⟩
    simp [retry_async, retryFrom, hf, hr]

/-- Witness for C5: with a budget of 3 attempts, a function that always
raises exception `j` at attempt `j` (all retryable) is invoked 3 times and
raises `2`; a function raising non-retryable `5` is invoked once. -/
theorem retry_attempt_budget_witness :
    retry_async (fun k => (Except.error k : Except ℕ ℕ)) (fun _ => true) 3 =
      (.raised 2, 3) ∧
    retry_async (fun _ => (Except.error 5 : Except ℕ ℕ)) (fun _ => false) 3 =
      (.raised 5, 1) :=
  ⟨(retry_attempt_budget (fun k => (Except.error k : Except ℕ ℕ)) (fun _ => true)
      3 (fun j => j) 0 (by decide)).1 (fun _ => rfl) (fun _ => rfl),
    (retry_attempt_budget (fun _ => (Except.error 5 : Except ℕ ℕ)) (fun _ => false)
      3 (fun j => j) 5 (by decide)).2 rfl rfl⟩

/-! ## C7: token bucket conservation -/

/-- How `consume` transforms the bucket: the success flag tests the
refilled level, rate and capacity are untouched, `last_update` becomes the
call time, and the token level is the refilled level minus the request on
success. -/
theorem TokenBucket.consume_state (b : TokenBucket) (now n : ℚ) :
    ((b.consume now n).1 = true ↔ n ≤ b.availableAt now) ∧
    (b.consume now n).2.rate = b.rate ∧
    (b.consume now n).2.capacity = b.capacity ∧
    (b.consume now n).2.last_update = now ∧
    (b.consume now n).2.tokens =
      (if n ≤ b.availableAt now then b.availableAt now - n
       else b.availableAt now) := by
  simp only [TokenBucket.consume]
  split_ifs with h <;> simp [h]

/-- The refilled level is nonnegative and at most the capacity (for a
well-formed bucket observed at a later time). -/
theorem TokenBucket.availableAt_bounds (b : TokenBucket) (now : ℚ)
    (hr : 0 ≤ b.rate) (h0 : 0 ≤ b.tokens) (hc : b.tokens ≤ b.capacity)
    (hl : b.last_update ≤ now) :
    0 ≤ b.availableAt now ∧ b.availableAt now ≤ b.capacity := by
  have helap : 0 ≤ (now - b.last_update) * b.rate :=
    mul_nonneg (sub_nonneg.mpr hl) hr
  exact ⟨le_min (le_trans h0 hc) (by linarith), min_le_left _ _⟩

/-- `consume` keeps the token level within `[0, capacity]`. -/
theorem TokenBucket.consume_bounds (b : TokenBucket) (now n : ℚ)
    (hr : 0 ≤ b.rate) (h0 : 0 ≤ b.tokens) (hc : b.tokens ≤ b.capacity)
    (hl : b.last_update ≤ now) (hn : 0 ≤ n) :
    0 ≤ (b.consume now n).2.tokens ∧ (b.consume now n).2.tokens ≤ b.capacity := by
  obtain ⟨ha0, hac⟩ := b.availableAt_bounds now hr h0 hc hl
  obtain ⟨-, -, -, -, htok⟩ := b.consume_state now n
  rw [htok]
  split_ifs with h <;> constructor <;> linarith

/-- Over any chronological trace of `consume` calls, the tokens granted
plus the remaining level are bounded by the starting level plus the refill
accrued up to the final call; the level stays nonnegative and the clock
advances. -/
theorem TokenBucket.consumeTrace_bound (b : TokenBucket) (evs : List (ℚ × ℚ))
    (hr : 0 ≤ b.rate) (h0 : 0 ≤ b.tokens) (hc : b.tokens ≤ b.capacity)
    (hch : chronological b.last_update evs) (hns : ∀ p ∈ evs, 0 ≤ p.2) :
    (b.consumeTrace evs).2 + (b.consumeTrace evs).1.tokens ≤
        b.tokens + b.rate * ((b.consumeTrace evs).1.last_update - b.last_update) ∧
      0 ≤ (b.consumeTrace evs).1.tokens ∧
      (b.consumeTrace evs).1.rate = b.rate ∧
      b.last_update ≤ (b.consumeTrace evs).1.last_update := by
  induction evs generalizing b with
  | nil =>
    refine ⟨?_, h0, rfl, le_refl _⟩
    simp [TokenBucket.consumeTrace]
  | cons p evs ih =>
    obtain ⟨t, n⟩ := p
    obtain ⟨hlt, hch'⟩ := hch
    have hn : 0 ≤ n := hns (t, n) (by simp)
    obtain ⟨hiff, hrate, hcap, hlast, htok⟩ := b.consume_state t n
    obtain ⟨hb0, hbc⟩ := b.consume_bounds t n hr h0 hc hlt hn
    have hunclipped : b.availableAt t ≤ b.tokens + (t - b.last_update) * b.rate :=
      min_le_right _ _
    have hcomm : (t - b.last_update) * b.rate = b.rate * (t - b.last_update) :=
      mul_comm _ _
    have hgrant : (if (b.consume t n).1 = true then n else 0) +
        (b.consume t n).2.tokens ≤ b.tokens + b.rate * (t - b.last_update) := by
      cases hflag : (b.consume t n).1 with
      | true =>
        have hok := hiff.mp hflag
        simp only [htok, if_pos hok, if_true]
        linarith
      | false =>
        have hneg : ¬ n ≤ b.availableAt t := fun hcon => by
          rw [hiff.mpr hcon] at hflag
          exact Bool.noConfusion hflag
        simp only [htok, if_neg hneg, Bool.false_eq_true, if_false, zero_add]
        linarith
    have ihall := ih (b.consume t n).2 (by rw [hrate]; exact hr) hb0
      (by rw [hcap]; exact hbc) (by rw [hlast]; exact hch')
      (fun q hq => hns q (List.mem_cons_of_mem _ hq))
    obtain ⟨ihbound, ih0, ihrate, ihlast⟩ := ihall
    rw [hrate, hlast] at ihbound
    rw [hlast] at ihlast
    rw [hrate] at ihrate
    simp only [TokenBucket.consumeTrace]
    refine ⟨?_, ih0, ihrate, le_trans hlt ihlast⟩
    have hsplit : b.rate * (((b.consume t n).2.consumeTrace evs).1.last_update -
          b.last_update) =
        b.rate * (((b.consume t n).2.consumeTrace evs).1.last_update - t) +
          b.rate * (t - b.last_update) := by
      ring
    linarith

/-- C7: a `consume` call refills to
`min(capacity, tokens + elapsed * rate)`, succeeds exactly when the
refilled level covers the request, subtracts the request on success and
leaves the refilled level otherwise; the level always stays in
`[0, capacity]`; and over any chronological sequence of `consume` calls
the total tokens granted never exceed `capacity + rate * elapsed` for the
elapsed window. -/
theorem tokenBucket_conservation (b : TokenBucket) (now n : ℚ)
    (evs : List (ℚ × ℚ)) (hr : 0 ≤ b.rate) (h0 : 0 ≤ b.tokens)
    (hc : b.tokens ≤ b.capacity) (hl : b.last_update ≤ now) (hn : 0 ≤ n)
    (hch : chronological b.last_update evs) (hns : ∀ p ∈ evs, 0 ≤ p.2) :
    ((b.consume now n).1 = true ↔ n ≤ b.availableAt now) ∧
    ((b.consume now n).1 = true →
      (b.consume now n).2.tokens = b.availableAt now - n) ∧
    ((b.consume now n).1 = false →
      (b.consume now n).2.tokens = b.availableAt now) ∧
    (0 ≤ (b.consume now n).2.tokens ∧
      (b.consume now n).2.tokens ≤ b.capacity) ∧
    (b.consumeTrace evs).2 ≤
      b.capacity + b.rate * ((b.consumeTrace evs).1.last_update - b.last_update) := by
  obtain ⟨hiff, -, -, -, htok⟩ := b.consume_state now n
  obtain ⟨hbound, hfin0, -, -⟩ := b.consumeTrace_bound evs hr h0 hc hch hns
  refine ⟨hiff, ?_, ?_, b.consume_bounds now n hr h0 hc hl hn, by linarith⟩
  · intro hok
    rw [htok, if_pos (hiff.mp hok)]
  · intro hko
    have hneg : ¬ n ≤ b.availableAt now := fun hle => by
      rw [hiff.mpr hle] at hko
      exact Bool.noConfusion hko
    rw [htok, if_neg hneg]

/-- Witness for C7: bucket with rate 1, capacity 10, full at time 0,
consume of 2 at time 1, trace `[(1, 3), (2, 4)]`. -/
theorem tokenBucket_conservation_witness :
    (0 : ℚ) ≤ 1 ∧ chronological (0 : ℚ) [(1, 3), (2, 4)] ∧
    (0 ≤ ((TokenBucket.mk 1 10 10 0).consume 1 2).2.tokens ∧
      ((TokenBucket.mk 1 10 10 0).consume 1 2).2.tokens ≤ 10) ∧
    ((TokenBucket.mk 1 10 10 0).consumeTrace [(1, 3), (2, 4)]).2 ≤
      10 + 1 * (((TokenBucket.mk 1 10 10 0).consumeTrace [(1, 3), (2, 4)]).1.last_update - 0) :=
  ⟨by decide, by decide,
    (tokenBucket_conservation (TokenBucket.mk 1 10 10 0) 1 2 [(1, 3), (2, 4)]
      (by decide) (by decide) (by decide) (by decide) (by decide) (by decide)
      (by decide)).2.2.2.1,
    (tokenBucket_conservation (TokenBucket.mk 1 10 10 0) 1 2 [(1, 3), (2, 4)]
      (by decide) (by decide) (by decide) (by decide) (by decide) (by decide)
      (by decide)).2.2.2.2⟩

/-! ## C2-C4: circuit breaker -/

/-- `runCalls` over a concatenation: final state composes, invocation
counts add. -/
theorem CircuitBreaker.runCalls_append (cb : CircuitBreaker)
    (l1 l2 : List (ℚ × Outcome)) :
    cb.runCalls (l1 ++ l2) =
      (((cb.runCalls l1).1.runCalls l2).1,
        (cb.runCalls l1).2 + ((cb.runCalls l1).1.runCalls l2).2) := by
  induction l1 generalizing cb with
  | nil => simp [CircuitBreaker.runCalls]
  | cons p l1 ih =>
    obtain ⟨t, o⟩ := p
    simp [CircuitBreaker.runCalls, ih, Nat.add_assoc]

/-- A counted failure in the CLOSED state: the exception is re-raised, the
failure count goes up, the failure time is recorded, and the breaker opens
exactly when the incremented count reaches the threshold. -/
theorem CircuitBreaker.call_closed_failure (cb : CircuitBreaker) (u : ℚ)
    (h : cb.state = .closed) :
    cb.call u .failure =
      (.raised,
        { cb with
          state := if cb.failure_threshold ≤ cb.failure_count + 1 then
              CircuitState.opened
            else CircuitState.closed
          failure_count := cb.failure_count + 1
          last_failure_time := some u }) := by
  simp only [CircuitBreaker.call, h]
  split_ifs <;> simp_all

/-- Fewer failures than the threshold keep a CLOSED breaker CLOSED, merely
counting them (all invoked). -/
theorem CircuitBreaker.runCalls_failures_below (ft : ℕ) (rt : ℚ)
    (st c s : ℕ) (l : Option ℚ) (u : ℚ) (k : ℕ) (hc : c + k < ft) :
    (CircuitBreaker.mk ft rt st .closed c s l).runCalls
        (List.replicate k (u, .failure)) =
      (CircuitBreaker.mk ft rt st .closed (c + k) s
        (if k = 0 then l else some u), k) := by
  induction k generalizing c l with
  | zero => simp [CircuitBreaker.runCalls]
  | succ k ih =>
    have hstep := CircuitBreaker.call_closed_failure
      (CircuitBreaker.mk ft rt st .closed c s l) u rfl
    have hlt : ¬ ft ≤ c + 1 := by omega
    rw [List.replicate_succ]
    simp only [CircuitBreaker.runCalls, hstep, hlt, if_false]
    rw [ih (c + 1) (some u) (by omega)]
    simp [Prod.ext_iff, CircuitBreaker.mk.injEq]
    all_goals omega

/-- Exactly enough consecutive counted failures flip a CLOSED breaker to
OPEN, with the failure count at the threshold and the failure time
recorded (all calls invoked). -/
theorem CircuitBreaker.runCalls_failures_reach (ft : ℕ) (rt : ℚ)
    (st c s : ℕ) (l : Option ℚ) (u : ℚ) (k : ℕ) (hk : 0 < k)
    (hc : c + k = ft) :
    (CircuitBreaker.mk ft rt st .closed c s l).runCalls
        (List.replicate k (u, .failure)) =
      (CircuitBreaker.mk ft rt st .opened ft s (some u), k) := by
  induction k generalizing c l with
  | zero => omega
  | succ k ih =>
    have hstep := CircuitBreaker.call_closed_failure
      (CircuitBreaker.mk ft rt st .closed c s l) u rfl
    rw [List.replicate_succ]
    rcases Nat.eq_zero_or_pos k with hk0 | hkpos
    · subst hk0
      have hge : ft ≤ c + 1 := by omega
      simp [List.replicate_zero, CircuitBreaker.runCalls, hstep, hge,
        Prod.ext_iff, CircuitBreaker.mk.injEq]
      all_goals omega
    · have hlt : ¬ ft ≤ c + 1 := by omega
      simp only [CircuitBreaker.runCalls, hstep, hlt, if_false]
      rw [ih (c + 1) (some u) hkpos (by omega)]
      simp [Nat.add_comm]

/-- C2: starting from a fresh CLOSED breaker with a positive threshold,
exactly `failureThreshold` consecutive counted failures (all invoked) make
the state OPEN, while any fewer leave it CLOSED; a further call attempted
with elapsed time strictly less than `recoveryTimeout` since the last
failure is rejected with `CircuitBreakerError`, the breaker state is
unchanged, and the total invocation count stays at the threshold. -/
theorem circuitBreaker_threshold_fail_fast (ft st : ℕ) (rt : ℚ) (u v : ℚ)
    (o : Outcome) (hft : 0 < ft) (hv : v - u < rt) :
    ((mkCircuitBreaker ft rt st).runCalls
        (List.replicate ft (u, .failure))).1.state = .opened ∧
    ((mkCircuitBreaker ft rt st).runCalls
        (List.replicate ft (u, .failure))).2 = ft ∧
    (∀ j < ft, ((mkCircuitBreaker ft rt st).runCalls
        (List.replicate j (u, .failure))).1.state = .closed) ∧
    (((mkCircuitBreaker ft rt st).runCalls
        (List.replicate ft (u, .failure))).1.call v o).1 = .breakerError ∧
    (((mkCircuitBreaker ft rt st).runCalls
        (List.replicate ft (u, .failure))).1.call v o).2 =
      ((mkCircuitBreaker ft rt st).runCalls
        (List.replicate ft (u, .failure))).1 ∧
    ((mkCircuitBreaker ft rt st).runCalls
        (List.replicate ft (u, .failure) ++ [(v, o)])).2 = ft := by
  have hreach := CircuitBreaker.runCalls_failures_reach ft rt st 0 0 none u ft
    hft (by omega)
  have hreach' : (mkCircuitBreaker ft rt st).runCalls
      (List.replicate ft (u, .failure)) =
      (CircuitBreaker.mk ft rt st .opened ft 0 (some u), ft) := hreach
  have hsar : (CircuitBreaker.mk ft rt st .opened ft 0
      (some u)).should_attempt_reset v = false := by
    simp only [CircuitBreaker.should_attempt_reset]
    exact decide_eq_false (not_le.mpr hv)
  have hfail : (CircuitBreaker.mk ft rt st .opened ft 0 (some u)).call v o =
      (.breakerError, CircuitBreaker.mk ft rt st .opened ft 0 (some u)) := by
    simp [CircuitBreaker.call, hsar]
  refine ⟨by rw [hreach'], by rw [hreach'], ?_, by rw [hreach', hfail],
    by rw [hreach', hfail], ?_⟩
  · intro j hj
    have hb := CircuitBreaker.runCalls_failures_below ft rt st 0 0 none u j
      (by omega)
    rw [show mkCircuitBreaker ft rt st =
      CircuitBreaker.mk ft rt st .closed 0 0 none from rfl, hb]
  · rw [CircuitBreaker.runCalls_append, hreach']
    simp [CircuitBreaker.runCalls, hfail]

/-- Witness for C2 at `failureThreshold = 2`, `recoveryTimeout = 30`,
failures at time 0, rejected call at time 1. -/
theorem circuitBreaker_threshold_fail_fast_witness :
    0 < 2 ∧ (1 : ℚ) - 0 < 30 ∧
    ((mkCircuitBreaker 2 30 1).runCalls
        (List.replicate 2 (0, .failure))).1.state = .opened ∧
    (((mkCircuitBreaker 2 30 1).runCalls
        (List.replicate 2 (0, .failure))).1.call 1 .success).1 = .breakerError ∧
    ((mkCircuitBreaker 2 30 1).runCalls
        (List.replicate 2 ((0 : ℚ), .failure) ++ [((1 : ℚ), .success)])).2 = 2 :=
  ⟨by decide, by with_unfolding_all decide,
    (circuitBreaker_threshold_fail_fast 2 1 30 0 1 .success (by decide)
      (by with_unfolding_all decide)).1,
    (circuitBreaker_threshold_fail_fast 2 1 30 0 1 .success (by decide)
      (by with_unfolding_all decide)).2.2.2.1,
    (circuitBreaker_threshold_fail_fast 2 1 30 0 1 .success (by decide)
      (by with_unfolding_all decide)).2.2.2.2.2⟩

/-- Counterexample for C3: breaker with `failureThreshold = 2`,
`recoveryTimeout = 0`, `successThreshold = 1`; two failures open it, a
successful call at time 0 enters HALF_OPEN and brings the success count to
the threshold — yet the observed state after that call is HALF_OPEN, not
CLOSED: the close happens only at the start of the next call. -/
theorem circuitBreaker_lazy_close_cex :
    ((mkCircuitBreaker 2 0 1).runCalls
        [(0, .failure), (0, .failure)]).1.state = .opened ∧
    ((mkCircuitBreaker 2 0 1).runCalls
        [(0, .failure), (0, .failure), (0, .success)]).1.success_count = 1 ∧
    ((mkCircuitBreaker 2 0 1).runCalls
        [(0, .failure), (0, .failure), (0, .success)]).1.success_threshold = 1 ∧
    ((mkCircuitBreaker 2 0 1).runCalls
        [(0, .failure), (0, .failure), (0, .success)]).1.state =
      CircuitState.halfOpen ∧
    ((mkCircuitBreaker 2 0 1).runCalls
        [(0, .failure), (0, .failure), (0, .success)]).1.state ≠
      CircuitState.closed := by
  with_unfolding_all decide

/-- Successful calls in HALF_OPEN only increment the success count while
it stays within the threshold; nothing else changes (all invoked). -/
theorem CircuitBreaker.runCalls_successes_halfOpen (cb : CircuitBreaker)
    (ts : List ℚ) (h : cb.state = .halfOpen)
    (hcount : cb.success_count + ts.length ≤ cb.success_threshold) :
    cb.runCalls (ts.map (fun t => (t, Outcome.success))) =
      ({ cb with success_count := cb.success_count + ts.length }, ts.length) := by
  induction ts generalizing cb with
  | nil => simp [CircuitBreaker.runCalls]
  | cons t ts ih =>
    have hlt : ¬ cb.success_threshold ≤ cb.success_count := by
      simp at hcount
      omega
    have hstep : cb.call t .success =
        (.returned, { cb with success_count := cb.success_count + 1 }) := by
      simp [CircuitBreaker.call, h, hlt]
    have hrec := ih { cb with success_count := cb.success_count + 1 } h
      (by simp at hcount ⊢; omega)
    simp only [List.map_cons, CircuitBreaker.runCalls, hstep, hrec]
    simp [Prod.ext_iff, CircuitBreaker.mk.injEq]
    all_goals omega

/-- C3 (amended): a success in HALF_OPEN that brings the success count to
`successThreshold` leaves the observed state HALF_OPEN; the transition to
CLOSED (with the failure count reset to 0) happens at the start of the
next call, before the wrapped function is invoked. -/
theorem circuitBreaker_halfopen_close_next_call (cb : CircuitBreaker)
    (ts : List ℚ) (t' : ℚ) (h : cb.state = .halfOpen)
    (h0 : cb.success_count = 0) (hlen : ts.length = cb.success_threshold) :
    (cb.runCalls (ts.map (fun t => (t, Outcome.success)))).1.state =
      CircuitState.halfOpen ∧
    (cb.runCalls (ts.map (fun t => (t, Outcome.success)))).1.success_count =
      cb.success_threshold ∧
    (cb.runCalls (ts.map (fun t => (t, Outcome.success)))).2 =
      cb.success_threshold ∧
    ((cb.runCalls (ts.map (fun t => (t, Outcome.success)))).1.call
        t' .success).1 = .returned ∧
    ((cb.runCalls (ts.map (fun t => (t, Outcome.success)))).1.call
        t' .success).2.state = CircuitState.closed ∧
    ((cb.runCalls (ts.map (fun t => (t, Outcome.success)))).1.call
        t' .success).2.failure_count = 0 := by
  have hrun := cb.runCalls_successes_halfOpen ts h (by omega)
  rw [hrun]
  have hcnt : cb.success_count + ts.length = cb.success_threshold := by omega
  have hfin : ({ cb with success_count := cb.success_count + ts.length } :
      CircuitBreaker).call t' .success =
      (.returned,
        { cb with state := CircuitState.closed, failure_count := 0,
                  success_count := cb.success_count + ts.length }) := by
    simp [CircuitBreaker.call, h, hcnt]
  rw [hfin]
  exact ⟨h, hcnt, hlen, rfl, rfl, rfl⟩

/-- Witness for C3 (amended): breaker already HALF_OPEN with
`successThreshold = 1`, one success at time 0, next call at time 5. -/
theorem circuitBreaker_halfopen_close_next_call_witness :
    ((CircuitBreaker.mk 2 0 1 .halfOpen 2 0 (some 0)).runCalls
        ([(0 : ℚ)].map (fun t => (t, Outcome.success)))).1.state =
      CircuitState.halfOpen ∧
    (((CircuitBreaker.mk 2 0 1 .halfOpen 2 0 (some 0)).runCalls
        ([(0 : ℚ)].map (fun t => (t, Outcome.success)))).1.call
        5 .success).2.state = CircuitState.closed :=
  ⟨(circuitBreaker_halfopen_close_next_call
      (CircuitBreaker.mk 2 0 1 .halfOpen 2 0 (some 0)) [0] 5 rfl rfl rfl).1,
    (circuitBreaker_halfopen_close_next_call
      (CircuitBreaker.mk 2 0 1 .halfOpen 2 0 (some 0)) [0] 5 rfl rfl rfl).2.2.2.2.1⟩

/-- Counterexample for C4: breaker with `failureThreshold = 2`,
`recoveryTimeout = 0`, `successThreshold = 1`, brought to HALF_OPEN with
the success count at the threshold; a counted failure then leaves the
breaker CLOSED, not OPEN, because the pending close transition fires
first. -/
theorem circuitBreaker_halfopen_failure_cex :
    ((mkCircuitBreaker 2 0 1).runCalls
        [(0, .failure), (0, .failure), (0, .success)]).1.state =
      CircuitState.halfOpen ∧
    (((mkCircuitBreaker 2 0 1).runCalls
        [(0, .failure), (0, .failure), (0, .success)]).1.call
        0 .failure).2.state = CircuitState.closed ∧
    (((mkCircuitBreaker 2 0 1).runCalls
        [(0, .failure), (0, .failure), (0, .success)]).1.call
        0 .failure).2.state ≠ CircuitState.opened := by
  with_unfolding_all decide

/-- C4 (amended): an OPEN breaker called once at least `recoveryTimeout`
after the recorded failure moves to HALF_OPEN with the success count
reset (so a successful probe shows count 1) and does invoke the wrapped
function; a counted failure in HALF_OPEN — provided the success count is
still below `successThreshold`, i.e. no close transition is pending —
re-opens the breaker and records the failure time. -/
theorem circuitBreaker_recovery (cb : CircuitBreaker) (t w : ℚ) (o : Outcome) :
    (cb.state = .opened → cb.last_failure_time = some w →
      cb.recovery_timeout ≤ t - w → 0 < cb.success_threshold →
      (cb.call t o).1 ≠ .breakerError ∧
      (cb.call t .success).2.state = CircuitState.halfOpen ∧
      (cb.call t .success).2.success_count = 1) ∧
    (cb.state = .halfOpen → cb.success_count < cb.success_threshold →
      (cb.call t .failure).1 = .raised ∧
      (cb.call t .failure).2.state = CircuitState.opened ∧
      (cb.call t .failure).2.last_failure_time = some t) := by
  constructor
  · intro hstate hlf hrt hst
    have hsar : cb.should_attempt_reset t = true := by
      simp [CircuitBreaker.should_attempt_reset, hlf]
      exact hrt
    have hnle : ¬ cb.success_threshold ≤ 0 := by omega
    refine ⟨?_, ?_, ?_⟩
    · cases o <;> simp [CircuitBreaker.call, hstate, hsar, hnle]
    · simp [CircuitBreaker.call, hstate, hsar, hnle]
    · simp [CircuitBreaker.call, hstate, hsar, hnle]
  · intro hstate hsc
    have hnle : ¬ cb.success_threshold ≤ cb.success_count := by omega
    refine ⟨?_, ?_, ?_⟩ <;> simp [CircuitBreaker.call, hstate, hnle]

/-- Witness for C4 (amended): recovery probe on an OPEN breaker
(`recoveryTimeout = 30`, failure at time 0, probe at time 40), and a
failure on a HALF_OPEN breaker with success count 1 below threshold 2. -/
theorem circuitBreaker_recovery_witness :
    ((CircuitBreaker.mk 3 30 2 .opened 3 5 (some 0)).call 40 .failure).1 ≠
      CallResult.breakerError ∧
    ((CircuitBreaker.mk 3 30 2 .opened 3 5 (some 0)).call
      40 .success).2.state = CircuitState.halfOpen ∧
    ((CircuitBreaker.mk 3 30 2 .halfOpen 0 1 (some 0)).call
      50 .failure).2.state = CircuitState.opened ∧
    ((CircuitBreaker.mk 3 30 2 .halfOpen 0 1 (some 0)).call
      50 .failure).2.last_failure_time = some 50 :=
  ⟨((circuitBreaker_recovery (CircuitBreaker.mk 3 30 2 .opened 3 5 (some 0))
      40 0 .failure).1 rfl rfl (by with_unfolding_all decide) (by decide)).1,
    ((circuitBreaker_recovery (CircuitBreaker.mk 3 30 2 .opened 3 5 (some 0))
      40 0 .failure).1 rfl rfl (by with_unfolding_all decide) (by decide)).2.1,
    ((circuitBreaker_recovery (CircuitBreaker.mk 3 30 2 .halfOpen 0 1 (some 0))
      50 0 .failure).2 rfl (by decide)).2.1,
    ((circuitBreaker_recovery (CircuitBreaker.mk 3 30 2 .halfOpen 0 1 (some 0))
      50 0 .failure).2 rfl (by decide)).2.2⟩

/-! ## Cache helper lemmas -/

/-- An entry returned by a key lookup carries that key. -/
theorem key_of_find? {l : List (CacheEntry α)} {k : String} {e : CacheEntry α}
    (h : l.find? (fun x => x.key == k) = some e) : e.key = k := by
  have := List.find?_some h
  simpa using this

/-- Replacing the entry under a key (with the key preserved) is what a
subsequent lookup of that key sees. -/
theorem find?_updateEntry (k : String) (f : CacheEntry α → CacheEntry α)
    (hf : ∀ e : CacheEntry α, e.key = k → (f e).key = k) (l : List (CacheEntry α)) :
    (updateEntry k f l).find? (fun x => x.key == k) =
      (l.find? (fun x => x.key == k)).map f := by
  induction l with
  | nil => rfl
  | cons e es ih =>
    by_cases he : e.key = k
    · simp [updateEntry, he, List.find?_cons, hf e he]
    · simp [updateEntry, he, List.find?_cons, ih]

/-- `updateEntry` never changes the number of entries. -/
theorem length_updateEntry (k : String) (f : CacheEntry α → CacheEntry α)
    (l : List (CacheEntry α)) : (updateEntry k f l).length = l.length := by
  induction l with
  | nil => rfl
  | cons e es ih =>
    by_cases he : e.key = k <;> simp [updateEntry, he, ih]

/-- A key absent from the key list is not found. -/
theorem find?_eq_none_of_not_mem_keys {l : List (CacheEntry α)} {k : String}
    (h : k ∉ l.map (fun e => e.key)) :
    l.find? (fun x => x.key == k) = none := by
  rw [List.find?_eq_none]
  intro e he hk
  exact h (by simpa using ⟨e, he, by simpa using hk⟩)

/-- With no duplicate keys, deleting a key makes later lookups miss. -/
theorem find?_removeEntry (k : String) (l : List (CacheEntry α))
    (hnd : (l.map (fun e => e.key)).Nodup) :
    (removeEntry k l).find? (fun x => x.key == k) = none := by
  induction l with
  | nil => rfl
  | cons e es ih =>
    simp only [List.map_cons, List.nodup_cons] at hnd
    by_cases he : e.key = k
    · simp only [removeEntry, he, if_true]
      exact find?_eq_none_of_not_mem_keys (he ▸ hnd.1)
    · simp [removeEntry, he, List.find?_cons, ih hnd.2]

/-- Deleting a found key removes exactly one entry. -/
theorem length_removeEntry_of_found {l : List (CacheEntry α)} {k : String}
    {e : CacheEntry α} (h : l.find? (fun x => x.key == k) = some e) :
    (removeEntry k l).length + 1 = l.length := by
  induction l with
  | nil => simp at h
  | cons a as ih =>
    by_cases ha : a.key = k
    · simp [removeEntry, ha]
    · rw [List.find?_cons_of_neg _ (by simpa using ha)] at h
      simp [removeEntry, ha, ih h]

/-- `removeEntry` removes at most one entry. -/
theorem length_removeEntry_le (k : String) (l : List (CacheEntry α)) :
    (removeEntry k l).length ≤ l.length := by
  induction l with
  | nil => simp [removeEntry]
  | cons a as ih =>
    by_cases ha : a.key = k
    all_goals simp [removeEntry, ha]
    all_goals omega

/-- A lookup miss survives appending entries with other keys. -/
theorem find?_append_of_none {l₁ l₂ : List (CacheEntry α)} {k : String}
    (h : l₁.find? (fun x => x.key == k) = none) :
    (l₁ ++ l₂).find? (fun x => x.key == k) = l₂.find? (fun x => x.key == k) := by
  induction l₁ with
  | nil => rfl
  | cons a as ih =>
    rw [List.find?_cons] at h
    cases hb : (a.key == k) with
    | true => rw [hb] at h; simp at h
    | false =>
      rw [hb] at h
      simp only [List.cons_append, List.find?_cons, hb]
      exact ih h

/-! ## C8: stale reads from the TTL cache -/

/-- C8: on an entry whose expiry has passed, `get` with `allowStale = true`
returns the stored value, counts it as a hit (both the entry's `hit_count`
and the cache's `hits` are incremented) and `get_with_metadata` flags it
as stale; the same state queried with `allowStale = false` misses and
removes the entry. -/
theorem ttlCache_stale_read (c : TTLCache α) (k : String) (e : CacheEntry α)
    (now : ℚ) (hfind : c.cache.find? (fun x => x.key == k) = some e)
    (hexp : e.is_expired now = true)
    (hnd : (c.cache.map (fun x => x.key)).Nodup) :
    (c.get k true now).1 = some e.value ∧
    (c.get k true now).2.hits = c.hits + 1 ∧
    (c.get k true now).2.cache.find? (fun x => x.key == k) =
      some (e.access now) ∧
    (e.access now).hit_count = e.hit_count + 1 ∧
    (c.get_with_metadata k true now).1 =
      some { value := e.value, is_stale := true,
             age_seconds := now - e.created_at, hit_count := e.hit_count + 1,
             created_at := e.created_at, expires_at := e.expires_at } ∧
    (c.get k false now).1 = none ∧
    (c.get k false now).2.misses = c.misses + 1 ∧
    (c.get k false now).2.cache.find? (fun x => x.key == k) = none := by
  have hupd := find?_updateEntry k (fun e' => e'.access now)
    (fun e' he' => he') c.cache
  rw [hfind] at hupd
  refine ⟨?_, ?_, ?_, rfl, ?_, ?_, ?_, ?_⟩
  · simp [TTLCache.get, hfind, hexp]
  · simp [TTLCache.get, hfind, hexp]
  · simp only [TTLCache.get, hfind, hexp, if_true]
    simpa using hupd
  · simp [TTLCache.get_with_metadata, hfind, hexp]
  · simp [TTLCache.get, hfind, hexp]
  · simp [TTLCache.get, hfind, hexp]
  · simp only [TTLCache.get, hfind, hexp, if_true, if_false, Bool.false_eq_true]
    simpa using find?_removeEntry k c.cache hnd

/-- Witness for C8: a one-entry cache whose entry expired at time 5,
queried at time 10. -/
theorem ttlCache_stale_read_witness :
    ((TTLCache.mk 60 10 [CacheEntry.mk "a" 7 0 (some 5) 3 0] 0 0 :
        TTLCache ℕ).get "a" true 10).1 = some 7 ∧
    ((TTLCache.mk 60 10 [CacheEntry.mk "a" 7 0 (some 5) 3 0] 0 0 :
        TTLCache ℕ).get_with_metadata "a" true 10).1 =
      some { value := 7, is_stale := true, age_seconds := 10 - 0,
             hit_count := 3 + 1, created_at := 0, expires_at := some 5 } ∧
    ((TTLCache.mk 60 10 [CacheEntry.mk "a" 7 0 (some 5) 3 0] 0 0 :
        TTLCache ℕ).get "a" false 10).1 = none ∧
    ((TTLCache.mk 60 10 [CacheEntry.mk "a" 7 0 (some 5) 3 0] 0 0 :
        TTLCache ℕ).get "a" false 10).2.cache.find?
      (fun x => x.key == "a") = none := by
  have h := ttlCache_stale_read
    (TTLCache.mk 60 10 [CacheEntry.mk "a" 7 0 (some 5) 3 0] 0 0 : TTLCache ℕ)
    "a" (CacheEntry.mk "a" 7 0 (some 5) 3 0) 10 (by decide)
    (by with_unfolding_all decide) (by decide)
  exact ⟨h.1, h.2.2.2.2.1, h.2.2.2.2.2.1, h.2.2.2.2.2.2.2⟩

/-! ## C10: non-positive TTL means no expiry -/

/-- A lookup miss survives dropping entries. -/
theorem find?_of_sublist_none {l' l : List (CacheEntry α)} {k : String}
    (hsub : l'.Sublist l) (h : l.find? (fun x => x.key == k) = none) :
    l'.find? (fun x => x.key == k) = none := by
  rw [List.find?_eq_none] at h ⊢
  intro x hx
  exact h x (hsub.subset hx)

/-- C10: `set` with a non-positive ttl (explicit or from the default)
stores an entry with no expiry; such an entry is never expired, so any
later `get` — with `allowStale` true or false — serves it as a fresh,
non-stale hit and keeps it in the cache. -/
theorem ttlCache_nonpositive_ttl (c : TTLCache α) (k : String) (v : α)
    (ttl : Option ℚ) (now t' : ℚ) (b : Bool)
    (httl : ttl.getD c.default_ttl ≤ 0) :
    (c.set k v ttl now).cache.find? (fun x => x.key == k) =
      some (CacheEntry.mk k v now none 0 now) ∧
    (CacheEntry.mk k v now none 0 now : CacheEntry α).is_expired t' = false ∧
    ((c.set k v ttl now).get k b t').1 = some v ∧
    ((c.set k v ttl now).get_with_metadata k b t').1 =
      some (CacheMetadata.mk v false (t' - now) 1 now none) ∧
    ((c.set k v ttl now).get k b t').2.cache.find? (fun x => x.key == k) =
      some (CacheEntry.mk k v now none 1 t') := by
  have hexpiry : ¬ (0 < ttl.getD c.default_ttl) := not_lt.mpr httl
  have hsub : (c.evict_oldest).cache.Sublist c.cache := by
    simp only [TTLCache.evict_oldest]
    cases minCreated c.cache with
    | none => exact List.Sublist.refl _
    | some m => exact List.eraseP_sublist _
  have hfind : (c.set k v ttl now).cache.find? (fun x => x.key == k) =
      some (CacheEntry.mk k v now none 0 now) := by
    by_cases hp : (c.cache.find? (fun x => x.key == k)).isSome
    · obtain ⟨e, he⟩ := Option.isSome_iff_exists.mp hp
      have hupd := find?_updateEntry k
        (fun _ => CacheEntry.mk k v now none 0 now) (fun _ _ => rfl) c.cache
      rw [he] at hupd
      have hps : (c.cache.find? (fun x => x.key == k)).isSome = true := hp
      simp only [TTLCache.set, hps, hexpiry, if_false, Bool.true_eq_false,
        and_false, if_true]
      simpa using hupd
    · have hnone : c.cache.find? (fun x => x.key == k) = none := by
        rw [Option.isSome_iff_exists] at hp
        cases hf : c.cache.find? (fun x => x.key == k) with
        | none => rfl
        | some e => exact absurd ⟨e, hf⟩ hp
      have hps : (c.cache.find? (fun x => x.key == k)).isSome = false := by
        rw [hnone]
        rfl
      by_cases hcap : c.max_size ≤ c.cache.length
      · have hn1 : (c.evict_oldest).cache.find? (fun x => x.key == k) = none :=
          find?_of_sublist_none hsub hnone
        simp only [TTLCache.set, hps, hexpiry, hcap, and_true, if_true,
          Bool.false_eq_true, if_false]
        rw [find?_append_of_none hn1]
        simp
      · simp only [TTLCache.set, hps, hexpiry, hcap, false_and, if_false,
          Bool.false_eq_true]
        rw [find?_append_of_none hnone]
        simp
  have hne : (CacheEntry.mk k v now none 0 now : CacheEntry α).is_expired t' =
      false := rfl
  have hupd2 := find?_updateEntry k (fun e' => e'.access t')
    (fun _ he' => he') (c.set k v ttl now).cache
  rw [hfind] at hupd2
  refine ⟨hfind, hne, ?_, ?_, ?_⟩
  · simp [TTLCache.get, hfind, hne]
  · simp [TTLCache.get_with_metadata, hfind, hne, CacheMetadata.mk.injEq]
  · simp only [TTLCache.get, hfind, hne, Bool.false_eq_true, if_false]
    simpa [CacheEntry.access] using hupd2

/-- Witness for C10: explicit `ttl_seconds = 0` on an empty cache with a
positive default ttl; read back at time 1000 with `allowStale = false`. -/
theorem ttlCache_nonpositive_ttl_witness :
    (some (0 : ℚ)).getD (mkTTLCache ℕ 100 10).default_ttl ≤ 0 ∧
    (((mkTTLCache ℕ 100 10).set "a" 7 (some 0) 0).get "a" false 1000).1 =
      some 7 ∧
    (((mkTTLCache ℕ 100 10).set "a" 7 (some 0) 0).get_with_metadata
        "a" false 1000).1 =
      some (CacheMetadata.mk 7 false (1000 - 0) 1 0 none) ∧
    (((mkTTLCache ℕ 100 10).set "a" 7 (some 0) 0).get
        "a" false 1000).2.cache.find? (fun x => x.key == "a") =
      some (CacheEntry.mk "a" 7 0 none 1 1000) :=
  ⟨by decide,
    (ttlCache_nonpositive_ttl (mkTTLCache ℕ 100 10) "a" 7 (some 0) 0 1000
      false (by decide)).2.2.1,
    (ttlCache_nonpositive_ttl (mkTTLCache ℕ 100 10) "a" 7 (some 0) 0 1000
      false (by decide)).2.2.2.1,
    (ttlCache_nonpositive_ttl (mkTTLCache ℕ 100 10) "a" 7 (some 0) 0 1000
      false (by decide)).2.2.2.2⟩

/-! ## C9: eviction policies and size bounds -/

/-- `minCreated` returns an attained lower bound of the creation times. -/
theorem minCreated_spec (l : List (CacheEntry α)) (m : ℚ)
    (h : minCreated l = some m) :
    (∃ e ∈ l, e.created_at = m) ∧ ∀ e ∈ l, m ≤ e.created_at := by
  induction l generalizing m with
  | nil => simp [minCreated] at h
  | cons a as ih =>
    simp only [minCreated] at h
    cases has : minCreated as with
    | none =>
      rw [has] at h
      obtain rfl : a.created_at = m := by simpa using h
      have : as = [] := by
        cases as with
        | nil => rfl
        | cons b bs => simp [minCreated] at has; cases h' : minCreated bs <;>
            simp [h'] at has
      subst this
      exact ⟨⟨a, by simp⟩, by simp⟩
    | some m' =>
      rw [has] at h
      obtain rfl : min a.created_at m' = m := by simpa using h
      obtain ⟨⟨e', he', hem⟩, hall⟩ := ih m' has
      rcases le_total a.created_at m' with hle | hle
      · rw [min_eq_left hle]
        refine ⟨⟨a, by simp⟩, ?_⟩
        intro e he
        rcases List.mem_cons.mp he with rfl | he
        · exact le_refl _
        · exact le_trans hle (hall e he)
      · rw [min_eq_right hle]
        refine ⟨⟨e', by simp [he'], hem⟩, ?_⟩
        intro e he
        rcases List.mem_cons.mp he with rfl | he
        · exact hle
        · exact hall e he

/-- A nonempty entry list has a minimum creation time. -/
theorem minCreated_ne_nil (l : List (CacheEntry α)) (h : l ≠ []) :
    ∃ m, minCreated l = some m := by
  cases l with
  | nil => exact absurd rfl h
  | cons a as =>
    simp only [minCreated]
    cases minCreated as <;> simp

/-- Evicting the oldest from a nonempty cache removes exactly one entry. -/
theorem TTLCache.evict_oldest_length (c : TTLCache α) (h : c.cache ≠ []) :
    (c.evict_oldest).cache.length + 1 = c.cache.length := by
  obtain ⟨m, hm⟩ := minCreated_ne_nil c.cache h
  obtain ⟨⟨e, he, hem⟩, -⟩ := minCreated_spec c.cache m hm
  simp only [TTLCache.evict_oldest, hm]
  rw [List.length_eraseP_of_mem he (by simpa using hem)]
  have : c.cache.length ≠ 0 := by
    intro h0
    exact h (List.length_eq_zero.mp h0)
  omega

/-- If `e₀` has the strictly smallest creation time, the minimum is its
creation time. -/
theorem minCreated_of_strict_min (l : List (CacheEntry α)) (e₀ : CacheEntry α)
    (h : e₀ ∈ l) (hmin : ∀ e ∈ l, e ≠ e₀ → e₀.created_at < e.created_at) :
    minCreated l = some e₀.created_at := by
  obtain ⟨m, hm⟩ := minCreated_ne_nil l (by rintro rfl; simp at h)
  obtain ⟨⟨e, he, hem⟩, hall⟩ := minCreated_spec l m hm
  rw [hm]
  have h1 : m ≤ e₀.created_at := hall e₀ h
  have h2 : e₀.created_at ≤ m := by
    by_cases hee : e = e₀
    · rw [← hem, hee]
    · exact le_of_lt (hem ▸ hmin e he hee)
  rw [le_antisymm h1 h2]

/-- Erasing on the strictly-minimal creation time removes exactly the
entry `e₀`: its key disappears (keys being unique) and the length drops by
one. -/
theorem keys_eraseP_min (l : List (CacheEntry α)) (e₀ : CacheEntry α)
    (h : e₀ ∈ l) (hmin : ∀ e ∈ l, e ≠ e₀ → e₀.created_at < e.created_at)
    (hnd : (l.map (fun e => e.key)).Nodup) :
    e₀.key ∉ (l.eraseP (fun e => e.created_at == e₀.created_at)).map
        (fun e => e.key) ∧
    (l.eraseP (fun e => e.created_at == e₀.created_at)).length + 1 =
      l.length := by
  induction l with
  | nil => simp at h
  | cons a as ih =>
    simp only [List.map_cons, List.nodup_cons] at hnd
    by_cases hae : a = e₀
    · subst hae
      rw [List.eraseP_cons_of_pos (by simp)]
      refine ⟨?_, rfl⟩
      exact hnd.1
    · have hmem : e₀ ∈ as := by
        rcases List.mem_cons.mp h with rfl | h'
        · exact absurd rfl hae
        · exact h'
      have hlt : e₀.created_at < a.created_at := hmin a (by simp) hae
      have hne : (a.created_at == e₀.created_at) = false := by
        simp only [beq_eq_false_iff_ne, ne_eq]
        intro hcon
        rw [hcon] at hlt
        exact lt_irrefl _ hlt
      rw [List.eraseP_cons_of_neg (by simp [hne])]
      obtain ⟨ih1, ih2⟩ := ih hmem
        (fun e he hne' => hmin e (List.mem_cons_of_mem _ he) hne') hnd.2
      refine ⟨?_, by simpa using ih2⟩
      simp only [List.map_cons, List.mem_cons]
      rintro (hk | hk)
      · exact hnd.1 (hk ▸ List.mem_map_of_mem (fun e => e.key) hmem)
      · exact ih1 hk

/-- `LRUCache.set` keeps the entry count within `max_size`, and
`LRUCache.get` never changes it beyond that bound. -/
theorem LRUCache.lru_size_bound (c : LRUCache α) (k : String) (v : α) (now : ℚ)
    (h : c.cache.length ≤ c.max_size) :
    (c.set k v now).cache.length ≤ c.max_size ∧
    (c.get k now).2.cache.length ≤ c.max_size := by
  constructor
  · cases hf : c.cache.find? (fun e => e.key == k) with
    | some e =>
      have := length_removeEntry_of_found hf
      simp only [LRUCache.set, hf]
      simp only [List.length_append, List.length_cons, List.length_nil]
      omega
    | none =>
      simp only [LRUCache.set, hf]
      split_ifs with hover
      · simp only [List.length_drop, List.length_append, List.length_cons,
          List.length_nil]
        omega
      · simp only [List.length_append, List.length_cons, List.length_nil] at hover ⊢
        omega
  · cases hf : c.cache.find? (fun e => e.key == k) with
    | some e =>
      have := length_removeEntry_of_found hf
      simp only [LRUCache.get, hf]
      simp only [List.length_append, List.length_cons, List.length_nil]
      omega
    | none => simpa [LRUCache.get, hf] using h

/-- `TTLCache.set` keeps the entry count within a positive `max_size`, and
`TTLCache.get` never grows the cache. -/
theorem TTLCache.ttl_size_bound (c : TTLCache α) (k : String) (v : α)
    (ttl : Option ℚ) (now : ℚ) (b : Bool) (hpos : 0 < c.max_size)
    (h : c.cache.length ≤ c.max_size) :
    (c.set k v ttl now).cache.length ≤ c.max_size ∧
    (c.get k b now).2.cache.length ≤ c.max_size := by
  constructor
  · by_cases hp : (c.cache.find? (fun x => x.key == k)).isSome
    · have hps : (c.cache.find? (fun x => x.key == k)).isSome = true := hp
      simp only [TTLCache.set, hps, Bool.true_eq_false, and_false, if_false,
        if_true]
      rw [length_updateEntry]
      exact h
    · have hps : (c.cache.find? (fun x => x.key == k)).isSome = false := by
        simpa using hp
      by_cases hcap : c.max_size ≤ c.cache.length
      · have hlen : c.cache.length = c.max_size := le_antisymm h hcap
        have hne : c.cache ≠ [] := by
          intro h0
          rw [h0] at hlen
          simp at hlen
          omega
        have hev := c.evict_oldest_length hne
        simp only [TTLCache.set, hps, hcap, and_true, if_true,
          Bool.false_eq_true, if_false]
        simp only [List.length_append, List.length_cons, List.length_nil]
        omega
      · simp only [TTLCache.set, hps, hcap, false_and, if_false,
          Bool.false_eq_true]
        simp only [List.length_append, List.length_cons, List.length_nil]
        omega
  · cases hf : c.cache.find? (fun x => x.key == k) with
    | none => simpa [TTLCache.get, hf] using h
    | some e =>
      by_cases hexp : e.is_expired now = true
      · cases b with
        | true =>
          simp only [TTLCache.get, hf, hexp, if_true]
          rw [length_updateEntry]
          exact h
        | false =>
          simp only [TTLCache.get, hf, hexp, if_true, Bool.false_eq_true,
            if_false]
          exact le_trans (length_removeEntry_le k c.cache) h
      · have hexp' : e.is_expired now = false := by simpa using hexp
        simp only [TTLCache.get, hf, hexp', Bool.false_eq_true, if_false]
        rw [length_updateEntry]
        exact h

/-- Inserting a sequence of keys all distinct from each other and from the
cache contents: the key order of the result is a sliding window — the last
`max_size` keys of the concatenation (everything older fell off the least
recently used end). -/
theorem LRUCache.setAll_fresh_keys (v : α) (now : ℚ) (ks : List String) :
    ∀ c : LRUCache α, (c.cache.map (fun e => e.key) ++ ks).Nodup →
      c.cache.length ≤ c.max_size →
      (c.setAll v now ks).cache.map (fun e => e.key) =
        (c.cache.map (fun e => e.key) ++ ks).drop
          (c.cache.length + ks.length - c.max_size) ∧
      (c.setAll v now ks).max_size = c.max_size ∧
      (c.setAll v now ks).cache.length ≤ c.max_size := by
  induction ks with
  | nil =>
    intro c hnd hlen
    refine ⟨?_, rfl, hlen⟩
    rw [show c.cache.length + [].length - c.max_size = 0 by
      simp
      omega]
    simp [LRUCache.setAll]
  | cons k ks ih =>
    intro c hnd hlen
    have hknot : k ∉ c.cache.map (fun e => e.key) := by
      rw [List.nodup_append] at hnd
      intro hmem
      exact hnd.2.2 hmem (by simp)
    have hfind : c.cache.find? (fun e => e.key == k) = none :=
      find?_eq_none_of_not_mem_keys hknot
    have hstep : (c.set k v now).cache =
        (if c.max_size < c.cache.length + 1 then
          (c.cache ++ [CacheEntry.mk k v now none 0 now]).drop 1
        else c.cache ++ [CacheEntry.mk k v now none 0 now]) := by
      simp [LRUCache.set, hfind]
    have hms : (c.set k v now).max_size = c.max_size := by
      simp [LRUCache.set, hfind]
    have hsetAll : c.setAll v now (k :: ks) = (c.set k v now).setAll v now ks := by
      simp [LRUCache.setAll]
    have hnd' : ((c.set k v now).cache.map (fun e => e.key) ++ ks).Nodup := by
      have hbig : ((c.cache.map (fun e => e.key) ++ [k]) ++ ks).Nodup := by
        rw [← List.append_cons]
        exact hnd
      have hsubl : (c.set k v now).cache.map (fun e => e.key) ++ ks |>.Sublist
          ((c.cache.map (fun e => e.key) ++ [k]) ++ ks) := by
        apply List.Sublist.append_right
        rw [hstep]
        split_ifs
        · rw [List.map_drop]
          simp only [List.map_append]
          exact List.drop_sublist _ _
        · simp only [List.map_append]
          exact List.Sublist.refl _
      exact hbig.sublist hsubl
    rw [hsetAll]
    by_cases hfull : c.max_size < c.cache.length + 1
    · have hlenc : c.cache.length = c.max_size := by omega
      have hlen' : (c.set k v now).cache.length ≤ (c.set k v now).max_size := by
        rw [hstep, hms, if_pos hfull]
        simp only [List.length_drop, List.length_append, List.length_cons,
          List.length_nil]
        omega
      obtain ⟨ihkeys, ihms, ihlen⟩ := ih (c.set k v now) hnd' hlen'
      rw [hms] at ihkeys ihms ihlen
      refine ⟨?_, ihms, ihlen⟩
      rw [ihkeys]
      have hkeys' : (c.set k v now).cache.map (fun e => e.key) =
          (c.cache.map (fun e => e.key) ++ [k]).drop 1 := by
        rw [hstep, if_pos hfull, List.map_drop]
        simp
      have hlen2 : (c.set k v now).cache.length = c.max_size := by
        rw [hstep, if_pos hfull]
        simp only [List.length_drop, List.length_append, List.length_cons,
          List.length_nil]
        omega
      rw [hkeys', hlen2]
      have e1 : List.drop 1 (List.map (fun e => e.key) c.cache ++ [k]) ++ ks =
          List.drop 1 ((List.map (fun e => e.key) c.cache ++ [k]) ++ ks) :=
        (List.drop_append_of_le_length (by simp)).symm
      rw [e1, List.drop_drop, ← List.append_cons]
      congr 1
      simp only [List.length_cons]
      omega
    · have hlen' : (c.set k v now).cache.length ≤ (c.set k v now).max_size := by
        rw [hstep, hms, if_neg hfull]
        simp only [List.length_append, List.length_cons, List.length_nil]
        omega
      obtain ⟨ihkeys, ihms, ihlen⟩ := ih (c.set k v now) hnd' hlen'
      rw [hms] at ihkeys ihms ihlen
      refine ⟨?_, ihms, ihlen⟩
      rw [ihkeys]
      have hkeys' : (c.set k v now).cache.map (fun e => e.key) =
          c.cache.map (fun e => e.key) ++ [k] := by
        rw [hstep, if_neg hfull]
        simp
      have hlen2 : (c.set k v now).cache.length = c.cache.length + 1 := by
        rw [hstep, if_neg hfull]
        simp
      rw [hkeys', hlen2, ← List.append_cons]
      congr 1
      simp only [List.length_cons]
      omega

/-- C9: both caches hold at most `maxSize` entries after any operation
(`maxSize > 0` for the TTL cache); inserting `maxSize + 1` distinct keys
into an empty LRU cache of capacity `maxSize` leaves exactly the last
`maxSize` keys, the first (least recently touched) key evicted; a get or
set of an existing key moves it to the most-recently-used end; and a TTL
cache at capacity evicts the entry with the strictly earliest `createdAt`
(whatever its access statistics) before inserting a fresh key. -/
theorem cache_eviction (c : LRUCache α) (tc : TTLCache α) (k k₀ : String)
    (rest : List String) (v w : α) (ttl : Option ℚ) (now : ℚ)
    (e e₀ : CacheEntry α) (m : ℕ) :
    (c.cache.length ≤ c.max_size →
      (c.set k v now).cache.length ≤ c.max_size ∧
      (c.get k now).2.cache.length ≤ c.max_size) ∧
    (0 < tc.max_size → tc.cache.length ≤ tc.max_size → ∀ b : Bool,
      (tc.set k v ttl now).cache.length ≤ tc.max_size ∧
      (tc.get k b now).2.cache.length ≤ tc.max_size) ∧
    ((k₀ :: rest).Nodup → (k₀ :: rest).length = m + 1 →
      ((mkLRUCache α m).setAll v now (k₀ :: rest)).cache.map
          (fun x => x.key) = rest ∧
      ((mkLRUCache α m).setAll v now (k₀ :: rest)).cache.length = m ∧
      k₀ ∉ ((mkLRUCache α m).setAll v now (k₀ :: rest)).cache.map
          (fun x => x.key)) ∧
    (c.cache.find? (fun x => x.key == k) = some e →
      (c.get k now).2.cache.map (fun x => x.key) =
        (removeEntry k c.cache).map (fun x => x.key) ++ [k] ∧
      (c.set k w now).cache.map (fun x => x.key) =
        (removeEntry k c.cache).map (fun x => x.key) ++ [k]) ∧
    (tc.cache.find? (fun x => x.key == k) = none →
      tc.cache.length = tc.max_size → 0 < tc.max_size → e₀ ∈ tc.cache →
      (∀ e' ∈ tc.cache, e' ≠ e₀ → e₀.created_at < e'.created_at) →
      (tc.cache.map (fun x => x.key)).Nodup →
      e₀.key ∉ (tc.set k v ttl now).cache.map (fun x => x.key) ∧
      k ∈ (tc.set k v ttl now).cache.map (fun x => x.key) ∧
      (tc.set k v ttl now).cache.length = tc.max_size) := by
  refine ⟨?_, ?_, ?_, ?_, ?_⟩
  · intro hlen
    exact c.lru_size_bound k v now hlen
  · intro hpos hlen b
    exact tc.ttl_size_bound k v ttl now b hpos hlen
  · intro hnodup hlen
    obtain ⟨ihkeys, -, -⟩ := LRUCache.setAll_fresh_keys v now (k₀ :: rest)
      (mkLRUCache α m) (by simpa [mkLRUCache] using hnodup) (by simp [mkLRUCache])
    have hlen' : (k₀ :: rest).length = m + 1 := hlen
    simp only [List.length_cons] at hlen'
    have hidx : (mkLRUCache α m).cache.length + (k₀ :: rest).length -
        (mkLRUCache α m).max_size = 1 := by
      simp [mkLRUCache]
      omega
    rw [hidx] at ihkeys
    have hkeys : ((mkLRUCache α m).setAll v now (k₀ :: rest)).cache.map
        (fun x => x.key) = rest := by
      rw [ihkeys]
      simp [mkLRUCache]
    refine ⟨hkeys, ?_, ?_⟩
    · have := congrArg List.length hkeys
      simpa using this.trans (by omega)
    · rw [hkeys]
      exact (List.nodup_cons.mp hnodup).1
  · intro hfind
    have hk := key_of_find? hfind
    constructor
    · simp only [LRUCache.get, hfind]
      simp [CacheEntry.access, hk]
    · simp only [LRUCache.set, hfind]
      simp [hk]
  · intro hfind hlen hpos hmem hmin hnd
    have hps : (tc.cache.find? (fun x => x.key == k)).isSome = false := by
      rw [hfind]
      rfl
    have hcap : tc.max_size ≤ tc.cache.length := le_of_eq hlen.symm
    have hminEq : minCreated tc.cache = some e₀.created_at :=
      minCreated_of_strict_min tc.cache e₀ hmem hmin
    have hkfresh : k ∉ tc.cache.map (fun x => x.key) := by
      intro hmemk
      obtain ⟨x, hx, hxk⟩ := List.mem_map.mp hmemk
      have := List.find?_eq_none.mp hfind x hx
      simp [hxk] at this
    obtain ⟨hkey, hlen2⟩ := keys_eraseP_min tc.cache e₀ hmem hmin hnd
    have hset : (tc.set k v ttl now).cache =
        (tc.cache.eraseP (fun x => x.created_at == e₀.created_at)) ++
          [CacheEntry.mk k v now
            (if 0 < ttl.getD tc.default_ttl then
              some (now + ttl.getD tc.default_ttl) else none) 0 now] := by
      simp only [TTLCache.set, hps, hcap, and_true, if_true,
        Bool.false_eq_true, if_false, TTLCache.evict_oldest, hminEq]
    rw [hset]
    have hek : e₀.key ∈ tc.cache.map (fun x => x.key) :=
      List.mem_map_of_mem (fun x => x.key) hmem
    refine ⟨?_, ?_, ?_⟩
    · simp only [List.map_append, List.mem_append, List.map_cons,
        List.map_nil, List.mem_cons, List.not_mem_nil, or_false]
      rintro (hmem' | hkeq)
      · exact hkey hmem'
      · rw [hkeq] at hek
        exact hkfresh hek
    · simp
    · simp only [List.length_append, List.length_cons, List.length_nil]
      omega

/-- Witness for C9: an LRU cache with keys `a`, `b` (capacity 2), a TTL
cache at capacity 2 with keys `x` (created 5) and `y` (created 3),
inserting three distinct keys `p`, `q`, `r` into an empty LRU cache of
capacity 2. -/
theorem cache_eviction_witness :
    (((mkLRUCache ℕ 2).setAll 7 0 ["p", "q", "r"]).cache.map
        (fun x => x.key) = ["q", "r"] ∧
      ((mkLRUCache ℕ 2).setAll 7 0 ["p", "q", "r"]).cache.length = 2 ∧
      "p" ∉ ((mkLRUCache ℕ 2).setAll 7 0 ["p", "q", "r"]).cache.map
        (fun x => x.key)) ∧
    ((LRUCache.mk 2 [CacheEntry.mk "a" 1 0 none 0 0,
        CacheEntry.mk "b" 2 0 none 0 0] 0 0 : LRUCache ℕ).get "a" 9).2.cache.map
      (fun x => x.key) =
      (removeEntry "a" [CacheEntry.mk "a" 1 0 none 0 0,
        CacheEntry.mk "b" 2 0 none 0 0]).map (fun x => x.key) ++ ["a"] ∧
    ("y" ∉ ((TTLCache.mk 60 2 [CacheEntry.mk "x" 1 5 none 0 0,
        CacheEntry.mk "y" 2 3 none 9 9] 0 0 : TTLCache ℕ).set
        "a" 7 none 10).cache.map (fun x => x.key) ∧
      "a" ∈ ((TTLCache.mk 60 2 [CacheEntry.mk "x" 1 5 none 0 0,
        CacheEntry.mk "y" 2 3 none 9 9] 0 0 : TTLCache ℕ).set
        "a" 7 none 10).cache.map (fun x => x.key) ∧
      ((TTLCache.mk 60 2 [CacheEntry.mk "x" 1 5 none 0 0,
        CacheEntry.mk "y" 2 3 none 9 9] 0 0 : TTLCache ℕ).set
        "a" 7 none 10).cache.length = 2) := by
  refine ⟨?_, ?_, ?_⟩
  · exact (cache_eviction (mkLRUCache ℕ 2)
      (TTLCache.mk 60 2 [CacheEntry.mk "x" 1 5 none 0 0,
        CacheEntry.mk "y" 2 3 none 9 9] 0 0) "a" "p" ["q", "r"] 7 8 none 10
      (CacheEntry.mk "a" 1 0 none 0 0) (CacheEntry.mk "y" 2 3 none 9 9)
      2).2.2.1 (by decide) (by decide)
  · exact ((cache_eviction (LRUCache.mk 2 [CacheEntry.mk "a" 1 0 none 0 0,
      CacheEntry.mk "b" 2 0 none 0 0] 0 0)
      (TTLCache.mk 60 2 [CacheEntry.mk "x" 1 5 none 0 0,
        CacheEntry.mk "y" 2 3 none 9 9] 0 0) "a" "p" ["q", "r"] 7 8 none 9
      (CacheEntry.mk "a" 1 0 none 0 0) (CacheEntry.mk "y" 2 3 none 9 9)
      2).2.2.2.1 (by decide)).1
  · exact (cache_eviction (mkLRUCache ℕ 2)
      (TTLCache.mk 60 2 [CacheEntry.mk "x" 1 5 none 0 0,
        CacheEntry.mk "y" 2 3 none 9 9] 0 0) "a" "p" ["q", "r"] 7 8 none 10
      (CacheEntry.mk "a" 1 0 none 0 0) (CacheEntry.mk "y" 2 3 none 9 9)
      2).2.2.2.2 (by decide) (by decide) (by decide) (by decide)
      (by decide) (by decide)

/-! ## C1: rate limiter double gate -/

/-- The refilled level of the endpoint's bucket at time `t`, as `acquire`
would see it: the existing bucket's refilled level, or the full burst
capacity for a bucket created on demand. -/
def RateLimiter.endpointAvailableAt (rl : RateLimiter) (ep : String) (t : ℚ) : ℚ :=
  match rl.buckets.find? (fun p => p.1 == ep) with
  | some p => p.2.availableAt t
  | none => rl.burst_size

/-- The refilled level is the capacity-clipped virtual level. -/
theorem availableAt_eq_min (b : TokenBucket) (t : ℚ) :
    b.availableAt t = min b.capacity (virtualLevel b t) := rfl

/-- A bucket created full at time `t` refills to its capacity at `t`. -/
theorem mkTokenBucket_availableAt (rate cap t : ℚ) :
    (mkTokenBucket rate (some cap) t).availableAt t = cap := by
  simp [mkTokenBucket, TokenBucket.availableAt]

/-- Virtual levels advance linearly with the clock. -/
theorem virtualLevel_shift (b : TokenBucket) (τ τ' : ℚ) :
    virtualLevel b τ' = virtualLevel b τ + (τ' - τ) * b.rate := by
  unfold virtualLevel
  ring

/-- Well-formedness is stable as the clock advances. -/
theorem RateLimiter.WF_mono (rl : RateLimiter) (τ τ' : ℚ) (h : rl.WF τ)
    (hle : τ ≤ τ') : rl.WF τ' := by
  obtain ⟨htps, hburst, ⟨hgr, hgc, hg0, hgcap, hglast⟩, hbuckets⟩ := h
  refine ⟨htps, hburst, ⟨hgr, hgc, hg0, hgcap, le_trans hglast hle⟩, ?_⟩
  intro p hp
  obtain ⟨⟨hbr, hbc, hb0, hbcap, hblast⟩, hinv⟩ := hbuckets p hp
  refine ⟨⟨hbr, hbc, hb0, hbcap, le_trans hblast hle⟩, ?_⟩
  have hshiftG := virtualLevel_shift rl.global_bucket τ τ'
  have hshiftB := virtualLevel_shift p.2 τ τ'
  have hΔ : 0 ≤ (τ' - τ) * rl.tokens_per_second :=
    mul_nonneg (by linarith) htps
  rcases hinv with hle' | hcap'
  · left
    rw [hshiftG, hshiftB, hgr, hbr]
    linarith
  · right
    rw [hshiftB, hbr]
    linarith

/-- A freshly constructed limiter is well-formed at its creation time. -/
theorem RateLimiter.WF_init (config : RateLimitConfig) (t0 : ℚ)
    (hrpm : 0 ≤ config.requests_per_minute)
    (hbs : ∀ b, config.burst_size = some b → 0 ≤ b) :
    (mkRateLimiter config t0).WF t0 := by
  have htps : 0 ≤ config.requests_per_minute / 60 :=
    div_nonneg hrpm (by norm_num)
  have hburst : 0 ≤ (mkRateLimiter config t0).burst_size := by
    simp only [mkRateLimiter]
    cases hb : config.burst_size with
    | none => exact hrpm
    | some b =>
      by_cases hb0 : b = 0
      · simp [hb0]
        exact hrpm
      · simp [hb0]
        exact hbs b hb
  refine ⟨htps, hburst, ⟨rfl, rfl, hburst, le_refl _, le_refl _⟩, ?_⟩
  intro p hp
  simp [mkRateLimiter] at hp

/-- Members of an updated bucket map are the new binding or old members. -/
theorem mem_updateBucket {ep : String} {b : TokenBucket}
    {l : List (String × TokenBucket)} {q : String × TokenBucket}
    (h : q ∈ updateBucket ep b l) : q = (ep, b) ∨ q ∈ l := by
  induction l with
  | nil => simp [updateBucket] at h
  | cons p ps ih =>
    by_cases hp : p.1 = ep
    · rw [updateBucket, if_pos hp] at h
      rcases List.mem_cons.mp h with rfl | h'
      · exact Or.inl rfl
      · exact Or.inr (List.mem_cons_of_mem _ h')
    · rw [updateBucket, if_neg hp] at h
      rcases List.mem_cons.mp h with rfl | h'
      · exact Or.inr (by simp)
      · rcases ih h' with h'' | h''
        · exact Or.inl h''
        · exact Or.inr (List.mem_cons_of_mem _ h'')

/-- `acquire` when the global gate rejects: counters bumped, the global
bucket merely refilled, the endpoint buckets untouched. -/
theorem RateLimiter.acquire_global_fail (rl : RateLimiter) (ep : String)
    (n t : ℚ) (h : (rl.global_bucket.consume t n).1 = false) :
    rl.acquire ep n t =
      (false,
        { rl with
          total_requests := rl.total_requests + 1
          global_bucket := (rl.global_bucket.consume t n).2
          rejected_requests := rl.rejected_requests + 1 }) := by
  simp [RateLimiter.acquire, h]

/-- `acquire` when both gates pass on an existing endpoint bucket. -/
theorem RateLimiter.acquire_both_pass_some (rl : RateLimiter) (ep : String)
    (n t : ℚ) (p : String × TokenBucket)
    (hfind : rl.buckets.find? (fun q => q.1 == ep) = some p)
    (hg : (rl.global_bucket.consume t n).1 = true)
    (he : (p.2.consume t n).1 = true) :
    rl.acquire ep n t =
      (true,
        { rl with
          total_requests := rl.total_requests + 1
          global_bucket := (rl.global_bucket.consume t n).2
          buckets := updateBucket ep (p.2.consume t n).2 rl.buckets }) := by
  simp [RateLimiter.acquire, RateLimiter.get_or_create_bucket, hfind, hg, he]

/-- `acquire` when both gates pass on a bucket created on demand. -/
theorem RateLimiter.acquire_both_pass_none (rl : RateLimiter) (ep : String)
    (n t : ℚ)
    (hfind : rl.buckets.find? (fun q => q.1 == ep) = none)
    (hg : (rl.global_bucket.consume t n).1 = true)
    (he : ((mkTokenBucket rl.tokens_per_second (some rl.burst_size) t).consume
        t n).1 = true) :
    rl.acquire ep n t =
      (true,
        { rl with
          total_requests := rl.total_requests + 1
          global_bucket := (rl.global_bucket.consume t n).2
          buckets := updateBucket ep
            ((mkTokenBucket rl.tokens_per_second (some rl.burst_size) t).consume
              t n).2
            (rl.buckets ++
              [(ep, mkTokenBucket rl.tokens_per_second (some rl.burst_size) t)]) }) := by
  simp [RateLimiter.acquire, RateLimiter.get_or_create_bucket, hfind, hg, he]

/-- Under the well-formedness invariant, the endpoint gate is never the
blocker: whatever the global bucket can grant, the endpoint bucket (or the
fresh full bucket about to be created) can grant too. -/
theorem RateLimiter.endpoint_not_blocking (rl : RateLimiter) (ep : String)
    (n t : ℚ) (hwf : rl.WF t) (hg : n ≤ rl.global_bucket.availableAt t) :
    n ≤ rl.endpointAvailableAt ep t := by
  obtain ⟨htps, hburst, ⟨hgr, hgc, hg0, hgcap, hglast⟩, hbuckets⟩ := hwf
  rw [availableAt_eq_min, hgc] at hg
  unfold RateLimiter.endpointAvailableAt
  cases hfind : rl.buckets.find? (fun q => q.1 == ep) with
  | none =>
    show n ≤ rl.burst_size
    exact le_trans hg (min_le_left _ _)
  | some p =>
    show n ≤ p.2.availableAt t
    obtain ⟨⟨hbr, hbc, hb0, hbcap, hblast⟩, hinv⟩ :=
      hbuckets p (List.mem_of_find?_eq_some hfind)
    rw [availableAt_eq_min, hbc]
    rcases hinv with hle' | hcap'
    · exact le_trans hg (min_le_min (le_refl _) hle')
    · rw [min_eq_left hcap']
      exact le_trans hg (min_le_left _ _)

/-- C1: on a well-formed limiter state, `acquire` succeeds exactly when
both the global bucket and the endpoint's bucket have at least the
requested tokens available at the call time; the endpoint gate is never
the blocker (so a failed `acquire` failed at the global gate); and a
failed `acquire` consumes nothing — the global bucket is merely refilled
(its level does not drop) and the endpoint buckets are untouched. -/
theorem rateLimiter_acquire_double_gate (rl : RateLimiter) (ep : String)
    (n t τ : ℚ) (hwf : rl.WF τ) (hτ : τ ≤ t) :
    ((rl.acquire ep n t).1 = true ↔
      (n ≤ rl.global_bucket.availableAt t ∧
        n ≤ rl.endpointAvailableAt ep t)) ∧
    (n ≤ rl.global_bucket.availableAt t →
      n ≤ rl.endpointAvailableAt ep t) ∧
    ((rl.acquire ep n t).1 = false →
      (rl.acquire ep n t).2.global_bucket.tokens =
        rl.global_bucket.availableAt t ∧
      rl.global_bucket.tokens ≤ rl.global_bucket.availableAt t ∧
      (rl.acquire ep n t).2.buckets = rl.buckets) := by
  have hwft := rl.WF_mono τ t hwf hτ
  obtain ⟨htps, hburst, ⟨hgr, hgc, hg0, hgcap, hglast⟩, hbuckets⟩ := id hwft
  have hblock : n ≤ rl.global_bucket.availableAt t →
      n ≤ rl.endpointAvailableAt ep t :=
    fun hg => rl.endpoint_not_blocking ep n t hwft hg
  have htokle : rl.global_bucket.tokens ≤ rl.global_bucket.availableAt t := by
    rw [availableAt_eq_min]
    have hΔ : 0 ≤ (t - rl.global_bucket.last_update) * rl.global_bucket.rate :=
      mul_nonneg (sub_nonneg.mpr hglast) (by rw [hgr]; exact htps)
    refine le_min (by rw [hgc]; exact hgcap) ?_
    unfold virtualLevel
    linarith
  by_cases hg : n ≤ rl.global_bucket.availableAt t
  · have hg1 : (rl.global_bucket.consume t n).1 = true :=
      (rl.global_bucket.consume_state t n).1.mpr hg
    have he := hblock hg
    cases hfind : rl.buckets.find? (fun q => q.1 == ep) with
    | some p =>
      have heA : rl.endpointAvailableAt ep t = p.2.availableAt t := by
        unfold RateLimiter.endpointAvailableAt
        rw [hfind]
      have he1 : (p.2.consume t n).1 = true :=
        (p.2.consume_state t n).1.mpr (by rw [heA] at he; exact he)
      rw [rl.acquire_both_pass_some ep n t p hfind hg1 he1]
      exact ⟨by simp [hg, he], hblock, by simp⟩
    | none =>
      have heA : rl.endpointAvailableAt ep t = rl.burst_size := by
        unfold RateLimiter.endpointAvailableAt
        rw [hfind]
      have he1 : ((mkTokenBucket rl.tokens_per_second (some rl.burst_size)
          t).consume t n).1 = true := by
        apply ((mkTokenBucket rl.tokens_per_second (some rl.burst_size)
          t).consume_state t n).1.mpr
        rw [mkTokenBucket_availableAt]
        rw [heA] at he
        exact he
      rw [rl.acquire_both_pass_none ep n t hfind hg1 he1]
      exact ⟨by simp [hg, he], hblock, by simp⟩
  · have hg1 : (rl.global_bucket.consume t n).1 = false := by
      cases hb : (rl.global_bucket.consume t n).1 with
      | false => rfl
      | true => exact absurd ((rl.global_bucket.consume_state t n).1.mp hb) hg
    rw [rl.acquire_global_fail ep n t hg1]
    refine ⟨by simp [hg], hblock, ?_⟩
    intro
    refine ⟨?_, htokle, rfl⟩
    obtain ⟨-, -, -, -, htok⟩ := rl.global_bucket.consume_state t n
    show (rl.global_bucket.consume t n).2.tokens = _
    rw [htok, if_neg hg]

/-- Witness for C1: a fresh limiter (60 requests per minute, burst 5) at
time 0, one token requested for endpoint `api`. -/
theorem rateLimiter_acquire_double_gate_witness :
    (mkRateLimiter (RateLimitConfig.mk 60 (some 5)) 0).WF 0 ∧
    (((mkRateLimiter (RateLimitConfig.mk 60 (some 5)) 0).acquire
        "api" 1 0).1 = true ↔
      (1 ≤ (mkRateLimiter (RateLimitConfig.mk 60 (some 5))
          0).global_bucket.availableAt 0 ∧
        1 ≤ (mkRateLimiter (RateLimitConfig.mk 60 (some 5))
          0).endpointAvailableAt "api" 0)) :=
  ⟨by with_unfolding_all decide,
    (rateLimiter_acquire_double_gate
      (mkRateLimiter (RateLimitConfig.mk 60 (some 5)) 0) "api" 1 0 0
      (by with_unfolding_all decide) (by decide)).1⟩

/-- Well-formedness (and with it the endpoint-never-blocks invariant) is
preserved by every `acquire` call — together with `WF_init`, every limiter
state reachable from a fresh limiter by `acquire` calls at non-decreasing
times is well-formed, so the hypotheses of the double-gate theorem hold
along every real execution. -/
theorem RateLimiter.WF_step (rl : RateLimiter) (ep : String) (n t τ : ℚ)
    (hwf : rl.WF τ) (hτ : τ ≤ t) (hn : 0 ≤ n) :
    ((rl.acquire ep n t).2).WF t := by
  have hwft := rl.WF_mono τ t hwf hτ
  obtain ⟨htps, hburst, ⟨hgr, hgc, hg0, hgcap, hglast⟩, hbuckets⟩ := id hwft
  obtain ⟨hgiff, hgr', hgc', hglast', hgtok'⟩ :=
    rl.global_bucket.consume_state t n
  obtain ⟨hgb0, hgbcap⟩ := rl.global_bucket.consume_bounds t n
    (by rw [hgr]; exact htps) hg0 (by rw [hgc]; exact hgcap) hglast hn
  have hgwf' : bucketWF rl.tokens_per_second rl.burst_size t
      (rl.global_bucket.consume t n).2 :=
    ⟨by rw [hgr', hgr], by rw [hgc', hgc], hgb0, by rw [← hgc]; exact hgbcap,
      le_of_eq hglast'⟩
  have hvzero : ∀ b : TokenBucket, b.last_update = t →
      virtualLevel b t = b.tokens := by
    intro b hb
    unfold virtualLevel
    rw [hb]
    ring
  have hvg' : virtualLevel (rl.global_bucket.consume t n).2 t ≤
      virtualLevel rl.global_bucket t := by
    rw [hvzero _ hglast', hgtok', availableAt_eq_min]
    split_ifs with hcase
    · have := min_le_right rl.global_bucket.capacity
        (virtualLevel rl.global_bucket t)
      linarith
    · exact min_le_right _ _
  have hold : ∀ p ∈ rl.buckets,
      bucketWF rl.tokens_per_second rl.burst_size t p.2 ∧
        (virtualLevel (rl.global_bucket.consume t n).2 t ≤ virtualLevel p.2 t ∨
          rl.burst_size ≤ virtualLevel p.2 t) := by
    intro p hp
    obtain ⟨hbwf, hinv⟩ := hbuckets p hp
    refine ⟨hbwf, ?_⟩
    rcases hinv with h1 | h2
    · exact Or.inl (le_trans hvg' h1)
    · exact Or.inr h2
  by_cases hg : n ≤ rl.global_bucket.availableAt t
  · have hg1 : (rl.global_bucket.consume t n).1 = true := hgiff.mpr hg
    have hvg'' : virtualLevel (rl.global_bucket.consume t n).2 t =
        rl.global_bucket.availableAt t - n := by
      rw [hvzero _ hglast', hgtok', if_pos hg]
    cases hfind : rl.buckets.find? (fun q => q.1 == ep) with
    | some p =>
      obtain ⟨⟨hbr, hbc, hb0, hbcap, hblast⟩, hinv⟩ :=
        hbuckets p (List.mem_of_find?_eq_some hfind)
      obtain ⟨heiff, hbr', hbc', hblast', hbtok'⟩ := p.2.consume_state t n
      have he : n ≤ p.2.availableAt t := by
        have := rl.endpoint_not_blocking ep n t hwft hg
        unfold RateLimiter.endpointAvailableAt at this
        rw [hfind] at this
        exact this
      have he1 : (p.2.consume t n).1 = true := heiff.mpr he
      obtain ⟨heb0, hebcap⟩ := p.2.consume_bounds t n
        (by rw [hbr]; exact htps) hb0 (by rw [hbc]; exact hbcap) hblast hn
      have hkey : rl.global_bucket.availableAt t ≤ p.2.availableAt t := by
        rw [availableAt_eq_min, availableAt_eq_min, hgc, hbc]
        rcases hinv with h1 | h2
        · exact min_le_min (le_refl _) h1
        · rw [min_eq_left h2]
          exact min_le_left _ _
      rw [rl.acquire_both_pass_some ep n t p hfind hg1 he1]
      refine ⟨htps, hburst, hgwf', ?_⟩
      intro q hq
      rcases mem_updateBucket hq with rfl | hq'
      · refine ⟨⟨by rw [hbr', hbr], by rw [hbc', hbc], heb0,
          by rw [← hbc]; exact hebcap, le_of_eq hblast'⟩, ?_⟩
        left
        rw [hvzero _ hblast', hbtok', if_pos he, hvg'']
        linarith
      · exact hold q hq'
    | none =>
      have he : n ≤ rl.burst_size := by
        have := rl.endpoint_not_blocking ep n t hwft hg
        unfold RateLimiter.endpointAvailableAt at this
        rw [hfind] at this
        exact this
      set fb := mkTokenBucket rl.tokens_per_second (some rl.burst_size) t
        with hfb
      have hfbavail : fb.availableAt t = rl.burst_size :=
        mkTokenBucket_availableAt _ _ _
      obtain ⟨hfiff, hfr', hfc', hflast', hftok'⟩ := fb.consume_state t n
      have he1 : (fb.consume t n).1 = true := hfiff.mpr (by rw [hfbavail]; exact he)
      have hfwf : bucketWF rl.tokens_per_second rl.burst_size t fb :=
        ⟨rfl, rfl, hburst, le_refl _, le_refl _⟩
      obtain ⟨hfb0, hfbcap⟩ := fb.consume_bounds t n htps hburst
        (le_refl _) (le_refl _) hn
      rw [rl.acquire_both_pass_none ep n t hfind hg1 he1]
      refine ⟨htps, hburst, hgwf', ?_⟩
      intro q hq
      rcases mem_updateBucket hq with rfl | hq'
      · refine ⟨⟨by rw [hfr']; rfl, by rw [hfc']; rfl, hfb0, hfbcap,
          le_of_eq hflast'⟩, ?_⟩
        left
        rw [hvzero _ hflast', hftok', if_pos (by rw [hfbavail]; exact he),
          hfbavail, hvg'']
        have : rl.global_bucket.availableAt t ≤ rl.burst_size := by
          rw [availableAt_eq_min, hgc]
          exact min_le_left _ _
        linarith
      · rcases List.mem_append.mp hq' with hq'' | hq''
        · exact hold q hq''
        · have : q = (ep, fb) := by simpa using hq''
          subst this
          refine ⟨hfwf, Or.inr ?_⟩
          rw [hvzero _ rfl]
          exact le_refl _
  · have hg1 : (rl.global_bucket.consume t n).1 = false := by
      cases hb : (rl.global_bucket.consume t n).1 with
      | false => rfl
      | true => exact absurd (hgiff.mp hb) hg
    rw [rl.acquire_global_fail ep n t hg1]
    exact ⟨htps, hburst, hgwf', hold⟩

end UsptoMcp
